import Mathlib

/-!
Verification development for the artifact-cache core of the Simulation
repository: the storage backends (`backend/cache/backends/*.py`), the
`CacheManager` (`backend/cache/cache_manager.py`) and the content-addressed
mission memoization engine (`backend/cache/mission_graph.py`).

The Python code is shallowly embedded: every stateful method becomes an
explicit state-passing Lean function, fallible code returns `Except`,
machine integers are `Nat`/`Int` with explicit `% 2^32` where the SHA-256
arithmetic overflows, and the float `total_size_mb` is modelled as an exact
rational.  Filesystem contents are modelled at the value level (an `.npz`
archive is its map of named arrays, a `.json` artifact is the document it
decodes to); the byte-level encoding produced by the numpy / json / pickle
libraries is an explicit function parameter `enc`, and on-disk sizes are
lengths of those encodings.
-/

namespace SimCache

/-- Model of the Python runtime values that flow through the cache layer:
JSON scalars and containers, numpy arrays (element values are irrelevant to
every property verified here, so they are modelled as integers), and raw
byte strings.  Python floats never influence any of the verified control
flow and are omitted.  Lists and dicts are represented as cons cells (so
the inductive is not nested and all recursion stays structural); the smart
constructors `pyList` and `pyDict` build them from Lean lists. -/
inductive PyVal where
  | none
  | bool (b : Bool)
  | int (n : Int)
  | str (s : String)
  | npArray (a : List Int)
  | bytes (b : List Nat)
  | listNil
  | listCons (hd tl : PyVal)
  | dictNil
  | dictCons (k : String) (v rest : PyVal)
deriving DecidableEq, Repr

/-- A Python list value. -/
def pyList : List PyVal → PyVal
  | [] => .listNil
  | x :: xs => .listCons x (pyList xs)

/-- A Python dict value (insertion order is the list order, as in CPython). -/
def pyDict : List (String × PyVal) → PyVal
  | [] => .dictNil
  | (k, v) :: rest => .dictCons k v (pyDict rest)

/-- The items of a dict value, in insertion order. -/
def dictPairs : PyVal → List (String × PyVal)
  | .dictCons k v rest => (k, v) :: dictPairs rest
  | _ => []

/-- The elements of a list value. -/
def listElems : PyVal → List PyVal
  | .listCons hd tl => hd :: listElems tl
  | _ => []

/-- Association-list lookup, mirroring Python `d.get(k)` / `k in d`. -/
def alGet {α : Type} : List (String × α) → String → Option α
  | [], _ => Option.none
  | (k, v) :: rest, key => if k = key then some v else alGet rest key

/-- Association-list store, mirroring Python `d[k] = v`: an existing key is
updated in place (dict order preserved), a fresh key is appended. -/
def alSet {α : Type} : List (String × α) → String → α → List (String × α)
  | [], key, v => [(key, v)]
  | (k, w) :: rest, key, v =>
      if k = key then (k, v) :: rest else (k, w) :: alSet rest key v

/-- Association-list removal, mirroring Python `del d[k]`. -/
def alDel {α : Type} : List (String × α) → String → List (String × α)
  | [], _ => []
  | (k, w) :: rest, key => if k = key then rest else (k, w) :: alDel rest key

/-- UTF-8 encoding of one character (code point), as in `str.encode()`. -/
def utf8Char (c : Char) : List Nat :=
  let n := c.toNat
  if n < 0x80 then [n]
  else if n < 0x800 then [0xC0 + n / 64, 0x80 + n % 64]
  else if n < 0x10000 then [0xE0 + n / 4096, 0x80 + n / 64 % 64, 0x80 + n % 64]
  else [0xF0 + n / 262144, 0x80 + n / 4096 % 64, 0x80 + n / 64 % 64, 0x80 + n % 64]

/-- UTF-8 encoding of a string, as in Python `s.encode()`. -/
def utf8Encode (s : String) : List Nat :=
  s.data.flatMap utf8Char

/-- The lowercase hexadecimal digit alphabet used by `hexdigest()`. -/
def hexChars : List Char := "0123456789abcdef".data

def hexDigitChar (n : Nat) : Char := hexChars.getD n '0'

/-- JSON string escaping as performed by Python `json.dumps` with its
default `ensure_ascii=True`: quote and backslash are escaped, control
characters use the short escapes or `\u00XX`, and non-ASCII code points
are emitted as `\uXXXX` (with surrogate pairs above the BMP). -/
def jsonEscapeChar (c : Char) : List Char :=
  let n := c.toNat
  if c = '"' then ['\\', '"']
  else if c = '\\' then ['\\', '\\']
  else if c = '\n' then ['\\', 'n']
  else if c = '\t' then ['\\', 't']
  else if c = '\r' then ['\\', 'r']
  else if n = 8 then ['\\', 'b']
  else if n = 12 then ['\\', 'f']
  else if n < 0x20 ∨ n ≥ 0x7F then
    if n < 0x10000 then
      ['\\', 'u', hexDigitChar (n / 4096 % 16), hexDigitChar (n / 256 % 16),
       hexDigitChar (n / 16 % 16), hexDigitChar (n % 16)]
    else
      let m := n - 0x10000
      let hi := 0xD800 + m / 1024
      let lo := 0xDC00 + m % 1024
      ['\\', 'u', hexDigitChar (hi / 4096 % 16), hexDigitChar (hi / 256 % 16),
       hexDigitChar (hi / 16 % 16), hexDigitChar (hi % 16),
       '\\', 'u', hexDigitChar (lo / 4096 % 16), hexDigitChar (lo / 256 % 16),
       hexDigitChar (lo / 16 % 16), hexDigitChar (lo % 16)]
  else [c]

/-- A JSON string literal: `"` ++ escaped contents ++ `"`. -/
def jsonQuote (s : String) : String :=
  String.mk ('"' :: s.data.flatMap jsonEscapeChar ++ ['"'])

/-- Lexicographic code-point comparison of character lists: Python's `<=`
on `str` values. -/
def charListLE : List Char → List Char → Bool
  | [], _ => true
  | _ :: _, [] => false
  | a :: as, b :: bs =>
    if a.toNat < b.toNat then true
    else if b.toNat < a.toNat then false
    else charListLE as bs

/-- Python string comparison `a <= b` (by code points). -/
def strLE (a b : String) : Bool := charListLE a.data b.data

theorem charListLE_total (as bs : List Char) :
    charListLE as bs = true ∨ charListLE bs as = true := by
  induction as generalizing bs with
  | nil => left; rfl
  | cons a as ih =>
    cases bs with
    | nil => right; rfl
    | cons b bs =>
      by_cases h₁ : a.toNat < b.toNat
      · left; simp [charListLE, h₁]
      · by_cases h₂ : b.toNat < a.toNat
        · right; simp [charListLE, h₂]
        · rcases ih bs with h | h <;> [left; right] <;>
            simpa [charListLE, h₁, h₂] using h

theorem charListLE_trans {as bs cs : List Char} (h₁ : charListLE as bs = true)
    (h₂ : charListLE bs cs = true) : charListLE as cs = true := by
  induction as generalizing bs cs with
  | nil => rfl
  | cons a as ih =>
    cases bs with
    | nil => simp [charListLE] at h₁
    | cons b bs =>
      cases cs with
      | nil => simp [charListLE] at h₂
      | cons c cs =>
        simp only [charListLE] at h₁ h₂ ⊢
        rcases Nat.lt_trichotomy a.toNat b.toNat with hab | hab | hab <;>
          rcases Nat.lt_trichotomy b.toNat c.toNat with hbc | hbc | hbc
        all_goals first
          | (have h : a.toNat < c.toNat := by omega
             simp [h])
          | (rw [if_neg (by omega : ¬ b.toNat < c.toNat),
                if_pos (by omega : c.toNat < b.toNat)] at h₂
             exact absurd h₂ (by simp))
          | (rw [if_neg (by omega : ¬ a.toNat < b.toNat),
                if_pos (by omega : b.toNat < a.toNat)] at h₁
             exact absurd h₁ (by simp))
          | (have hac : ¬ a.toNat < c.toNat := by omega
             have hca : ¬ c.toNat < a.toNat := by omega
             rw [if_neg (by omega : ¬ a.toNat < b.toNat),
               if_neg (by omega : ¬ b.toNat < a.toNat)] at h₁
             rw [if_neg (by omega : ¬ b.toNat < c.toNat),
               if_neg (by omega : ¬ c.toNat < b.toNat)] at h₂
             rw [if_neg hac, if_neg hca]
             exact ih h₁ h₂)

theorem charListLE_antisymm {as bs : List Char} (h₁ : charListLE as bs = true)
    (h₂ : charListLE bs as = true) : as = bs := by
  induction as generalizing bs with
  | nil =>
    cases bs with
    | nil => rfl
    | cons b bs => simp [charListLE] at h₂
  | cons a as ih =>
    cases bs with
    | nil => simp [charListLE] at h₁
    | cons b bs =>
      simp only [charListLE] at h₁ h₂
      rcases Nat.lt_trichotomy a.toNat b.toNat with hab | hab | hab
      · rw [if_neg (by omega : ¬ b.toNat < a.toNat),
          if_pos (by omega : a.toNat < b.toNat)] at h₂
        exact absurd h₂ (by simp)
      · have hv : a = b := Char.eq_of_val_eq (UInt32.toNat.inj hab)
        rw [if_neg (by omega : ¬ a.toNat < b.toNat),
          if_neg (by omega : ¬ b.toNat < a.toNat)] at h₁
        rw [if_neg (by omega : ¬ b.toNat < a.toNat),
          if_neg (by omega : ¬ a.toNat < b.toNat)] at h₂
        rw [hv, ih h₁ h₂]
      · rw [if_neg (by omega : ¬ a.toNat < b.toNat),
          if_pos (by omega : b.toNat < a.toNat)] at h₁
        exact absurd h₁ (by simp)

/-- Ordering of dict items by key, as used by `json.dumps(.., sort_keys=True)`
(Python `sorted` compares the key strings). -/
def keyLE (a b : String × PyVal) : Prop := strLE a.1 b.1 = true

instance : DecidableRel keyLE :=
  fun a b => inferInstanceAs (Decidable (strLE a.1 b.1 = true))

instance : IsTotal (String × PyVal) keyLE :=
  ⟨fun a b => charListLE_total a.1.data b.1.data⟩

instance : IsTrans (String × PyVal) keyLE :=
  ⟨fun _ _ _ h₁ h₂ => charListLE_trans h₁ h₂⟩

/-- Stable sort of dict items by key (Python `sorted` is stable; so is
insertion sort). -/
def sortByKey (m : List (String × PyVal)) : List (String × PyVal) :=
  List.insertionSort keyLE m

/-- Python `repr` of an integer, as emitted by `json.dumps`. -/
def intDumps (n : Int) : String := toString n

/-- `json.dumps(v, sort_keys=True)` with the default separators `", "` and
`": "`.  The `fuel` argument only serves to make the recursion through the
sorted item list structural; `jsonDumpsSorted` below supplies enough fuel
for every value, so the `fuel = 0` branch is never reached from it.
Non-serializable values (`npArray`, `bytes`) make `json.dumps` raise; the
embedding is total and callers guard with `jsonSerializable` exactly where
the Python code guards with `try json.dumps`. -/
def dumpsF : Nat → PyVal → String
  | 0, _ => ""
  | fuel + 1, v =>
    match v with
    | .none => "null"
    | .bool b => cond b "true" "false"
    | .int n => intDumps n
    | .str s => jsonQuote s
    | .npArray _ => ""
    | .bytes _ => ""
    | .listNil => "[]"
    | .listCons hd tl =>
        "[" ++
          String.intercalate ", "
            ((listElems (.listCons hd tl)).map (fun x => dumpsF fuel x)) ++ "]"
    | .dictNil => "\x7b\x7d"
    | .dictCons k v1 rest =>
        "\x7b" ++
          String.intercalate ", "
            ((sortByKey (dictPairs (.dictCons k v1 rest))).map
              (fun kv => jsonQuote kv.1 ++ ": " ++ dumpsF fuel kv.2)) ++
          "\x7d"

/-- Structural size of a value; used only as recursion fuel for `dumpsF`
(it strictly bounds the size of every nested list element / dict value). -/
def pyFuel : PyVal → Nat
  | .listCons hd tl => 1 + pyFuel hd + pyFuel tl
  | .dictCons _ v rest => 1 + pyFuel v + pyFuel rest
  | _ => 1

/-- Canonical serialization `json.dumps(v, sort_keys=True)`. -/
def jsonDumpsSorted (v : PyVal) : String := dumpsF (pyFuel v) v

/-- Python `json.dumps` succeeds exactly on values built from `None`, bools,
ints, strings, lists and string-keyed dicts; numpy arrays and bytes raise
`TypeError`.  This is the predicate behind
`FilesystemBackend._is_json_serializable`. -/
def jsonSerializable : PyVal → Bool
  | .none => true
  | .bool _ => true
  | .int _ => true
  | .str _ => true
  | .npArray _ => false
  | .bytes _ => false
  | .listNil => true
  | .listCons hd tl => jsonSerializable hd && jsonSerializable tl
  | .dictNil => true
  | .dictCons _ v rest => jsonSerializable v && jsonSerializable rest

/-! ### SHA-256 (`hashlib.sha256`)

A direct executable implementation of FIPS 180-4 over byte lists, with all
word arithmetic taken modulo `2 ^ 32`. -/

def w32 : Nat := 4294967296

def rotr32 (n x : Nat) : Nat := ((x >>> n) ||| (x <<< (32 - n))) % w32

def sha256K : List Nat :=
  [1116352408, 1899447441, 3049323471, 3921009573, 961987163,
   1508970993, 2453635748, 2870763221, 3624381080, 310598401,
   607225278, 1426881987, 1925078388, 2162078206, 2614888103,
   3248222580, 3835390401, 4022224774, 264347078, 604807628,
   770255983, 1249150122, 1555081692, 1996064986, 2554220882,
   2821834349, 2952996808, 3210313671, 3336571891, 3584528711,
   113926993, 338241895, 666307205, 773529912, 1294757372,
   1396182291, 1695183700, 1986661051, 2177026350, 2456956037,
   2730485921, 2820302411, 3259730800, 3345764771, 3516065817,
   3600352804, 4094571909, 275423344, 430227734, 506948616,
   659060556, 883997877, 958139571, 1322822218, 1537002063,
   1747873779, 1955562222, 2024104815, 2227730452, 2361852424,
   2428436474, 2756734187, 3204031479, 3329325298]

def sha256H0 : List Nat :=
  [1779033703,
   3144134277,
   1013904242,
   2773480762,
   1359893119,
   2600822924,
   528734635,
   1541459225]

def smallSigma0 (x : Nat) : Nat := rotr32 7 x ^^^ rotr32 18 x ^^^ (x >>> 3)

def smallSigma1 (x : Nat) : Nat := rotr32 17 x ^^^ rotr32 19 x ^^^ (x >>> 10)

def bigSigma0 (x : Nat) : Nat := rotr32 2 x ^^^ rotr32 13 x ^^^ rotr32 22 x

def bigSigma1 (x : Nat) : Nat := rotr32 6 x ^^^ rotr32 11 x ^^^ rotr32 25 x

def shaCh (x y z : Nat) : Nat := (x &&& y) ^^^ ((w32 - 1 - x) &&& z)

def shaMaj (x y z : Nat) : Nat := (x &&& y) ^^^ (x &&& z) ^^^ (y &&& z)

/-- Append the `0x80` marker, zero padding and the 64-bit big-endian bit
length, so that the padded message length is a multiple of 64 bytes. -/
def sha256pad (msg : List Nat) : List Nat :=
  let len := msg.length
  let zeros := (119 - len % 64) % 64
  let lenBits := len * 8
  msg ++ 0x80 :: List.replicate zeros 0 ++
    (List.range 8).map (fun i => lenBits >>> (8 * (7 - i)) % 256)

/-- Group bytes into big-endian 32-bit words (structural recursion). -/
def bytesToWords : List Nat → List Nat
  | b0 :: b1 :: b2 :: b3 :: rest =>
      (b0 <<< 24 + b1 <<< 16 + b2 <<< 8 + b3) :: bytesToWords rest
  | _ => []

/-- Group a word list into 16-word blocks; the fuel (any bound on the number
of blocks) keeps the recursion structural. -/
def chunk16 : Nat → List Nat → List (List Nat)
  | 0, _ => []
  | _ + 1, [] => []
  | fuel + 1, ws => ws.take 16 :: chunk16 fuel (ws.drop 16)

/-- Message-schedule extension: repeatedly append
`σ1(W[t-2]) + W[t-7] + σ0(W[t-15]) + W[t-16]  (mod 2^32)`. -/
def extendW : Nat → List Nat → List Nat
  | 0, ws => ws
  | fuel + 1, ws =>
    let n := ws.length
    let nw := (smallSigma1 (ws.getD (n - 2) 0) + ws.getD (n - 7) 0 +
               smallSigma0 (ws.getD (n - 15) 0) + ws.getD (n - 16) 0) % w32
    extendW fuel (ws ++ [nw])

/-- One round of the SHA-256 compression function on the 8-word state. -/
def compressRound (kw : List Nat) (st : List Nat) (t : Nat) : List Nat :=
  match st with
  | [a, b, c, d, e, f, g, h] =>
    let t1 := (h + bigSigma1 e + shaCh e f g + sha256K.getD t 0 + kw.getD t 0) % w32
    let t2 := (bigSigma0 a + shaMaj a b c) % w32
    [(t1 + t2) % w32, a, b, c, (d + t1) % w32, e, f, g]
  | _ => st

/-- Process one 16-word block against the running hash value. -/
def sha256Block (hv : List Nat) (block : List Nat) : List Nat :=
  let kw := extendW 48 block
  let st := (List.range 64).foldl (compressRound kw) hv
  (hv.zip st).map (fun p => (p.1 + p.2) % w32)

/-- The eight 32-bit words of the SHA-256 digest of a byte string. -/
def sha256Words (msg : List Nat) : List Nat :=
  let ws := bytesToWords (sha256pad msg)
  (chunk16 ws.length ws).foldl sha256Block sha256H0

/-- Eight lowercase hex characters of one 32-bit word. -/
def wordToHexChars (x : Nat) : List Char :=
  (List.range 8).map (fun i => hexDigitChar (x >>> (4 * (7 - i)) % 16))

/-- The 64 characters of `hashlib.sha256(msg).hexdigest()`. -/
def sha256hexChars (msg : List Nat) : List Char :=
  (sha256Words msg).flatMap wordToHexChars

/-- `hashlib.sha256(msg).hexdigest()`. -/
def sha256hex (msg : List Nat) : String :=
  String.mk (sha256hexChars msg)

/-! ### Mission nodes (`mission_graph.py`: `MissionNode`, `MissionDAG`) -/

/-- `MissionNode._compute_hash`: serialize `{"type": .., "params": ..}` with
`json.dumps(.., sort_keys=True)`, SHA-256 it, and keep the first 16 hex
characters after the command type. -/
def computeNodeId (node_type : String) (params : List (String × PyVal)) : String :=
  let node_json :=
    jsonDumpsSorted (pyDict [("type", .str node_type), ("params", pyDict params)])
  let node_hash := sha256hexChars (utf8Encode node_json)
  node_type ++ "_" ++ String.mk (node_hash.take 16)

/-- One node of the mission DAG.  The `cached_result` attribute of the
Python class is never consulted by `run_mission` and is omitted. -/
structure MissionNode where
  node_type : String
  params : List (String × PyVal)
  node_id : String
  dependencies : List String
deriving DecidableEq, Repr

/-- A mission command `{"type": .., "params": ..}`. -/
abbrev Command := String × List (String × PyVal)

structure MissionDAG where
  nodes : List (String × MissionNode)
  execution_order : List String
deriving DecidableEq, Repr

/-- `MissionDAG._build_dag`: one node per command, each depending on the
previous node's id (strictly sequential chain). -/
def buildDagLoop (acc : MissionDAG) (prev : Option String) : List Command → MissionDAG
  | [] => acc
  | (t, ps) :: rest =>
    let nid := computeNodeId t ps
    let node : MissionNode :=
      { node_type := t, params := ps, node_id := nid,
        dependencies := match prev with | some p => [p] | Option.none => [] }
    buildDagLoop
      { nodes := alSet acc.nodes nid node,
        execution_order := acc.execution_order ++ [nid] }
      (some nid) rest

def buildDag (commands : List Command) : MissionDAG :=
  buildDagLoop { nodes := [], execution_order := [] } Option.none commands

/-! ### Storage backends (`backends/filesystem_backend.py`,
`backends/binary_backend.py`, `backends/model_backend.py`)

A category directory is modelled at the value level: an `.npz` archive is
its list of named arrays, a `.json` artifact is the document it decodes
to, a `.dat` file is its bytes, a `.pt` checkpoint is the pickled dict.
The file `index.json` written by `CacheManager._save_metadata` lives in the
same directory and therefore shares the `<key>.json` namespace of a
`FilesystemBackend`; it is modelled as the reserved json entry `"index"`
(`FsJson.indexDoc`). -/

inductive PyErr where
  | keyError (msg : String)
  | fileNotFoundError (msg : String)
  | valueError (msg : String)
deriving DecidableEq, Repr

/-- Content of a `<key>.json` file in a filesystem-backed category: either
an artifact document, or the category's metadata index (`index.json`).
The decoded content of the index file is irrelevant to every verified
property; `fsLoad` returns a placeholder dict for it. -/
inductive FsJson where
  | doc (v : PyVal)
  | indexDoc
deriving DecidableEq, Repr

structure FsState where
  npz : List (String × List (String × List Int))
  js : List (String × FsJson)
deriving DecidableEq, Repr

structure BinState where
  dat : List (String × List Nat)
  meta : List (String × PyVal)
deriving DecidableEq, Repr

structure ModState where
  pt : List (String × PyVal)
  meta : List (String × PyVal)
deriving DecidableEq, Repr

/-- The file written by a backend `save`, i.e. the artifact found at the
returned path.  Its on-disk byte encoding (numpy's compressed npz, json's
indented text, pickle) is the explicit parameter `enc` below. -/
inductive Artifact where
  | npzA (files : List (String × List Int))
  | jsonA (doc : PyVal)
  | datA (b : List Nat)
  | ptA (d : PyVal)
deriving DecidableEq, Repr

def isNpArray : PyVal → Bool
  | .npArray _ => true
  | _ => false

/-- `isinstance(data, dict) and all(isinstance(v, np.ndarray) for v in
data.values())`. -/
def isDictOfArrays : PyVal → Bool
  | .dictNil => true
  | .dictCons _ (.npArray _) rest => isDictOfArrays rest
  | _ => false

def isDict : PyVal → Bool
  | .dictNil => true
  | .dictCons _ _ _ => true
  | _ => false

/-- The named arrays of a dict-of-arrays payload, in insertion order
(`np.savez_compressed(path, **data)` keeps keyword order). -/
def dictArrays : PyVal → List (String × List Int)
  | .dictCons k (.npArray a) rest => (k, a) :: dictArrays rest
  | _ => []

/-- `FilesystemBackend.save`: numpy array → `.npz` under the archive name
`"data"`; dict of arrays → `.npz`; JSON-serializable → `.json`; anything
else raises `ValueError`. -/
def fsSave (st : FsState) (key : String) (data : PyVal) :
    Except PyErr (FsState × Artifact) :=
  match data with
  | .npArray a =>
      .ok ({ st with npz := alSet st.npz key [("data", a)] }, .npzA [("data", a)])
  | _ =>
    if isDictOfArrays data then
      let files := dictArrays data
      .ok ({ st with npz := alSet st.npz key files }, .npzA files)
    else if jsonSerializable data then
      .ok ({ st with js := alSet st.js key (.doc data) }, .jsonA data)
    else
      .error (.valueError "Unsupported data type")

/-- `FilesystemBackend.load`: try `<key>.npz` first (returning the bare
array when the archive holds the name `"data"`, else the dict of arrays),
then `<key>.json`, else `FileNotFoundError`. -/
def fsLoad (st : FsState) (key : String) : Except PyErr PyVal :=
  match alGet st.npz key with
  | some files =>
    match alGet files "data" with
    | some a => .ok (.npArray a)
    | Option.none => .ok (pyDict (files.map (fun kv => (kv.1, .npArray kv.2))))
  | Option.none =>
    match alGet st.js key with
    | some (.doc v) => .ok v
    | some .indexDoc => .ok .dictNil
    | Option.none => .error (.fileNotFoundError ("Cache key not found: " ++ key))

def fsExists (st : FsState) (key : String) : Bool :=
  (alGet st.npz key).isSome || (alGet st.js key).isSome

/-- `FilesystemBackend.delete`: unlink both `<key>.npz` and `<key>.json`;
true when either existed. -/
def fsDelete (st : FsState) (key : String) : FsState × Bool :=
  let deleted := (alGet st.npz key).isSome || (alGet st.js key).isSome
  ({ npz := alDel st.npz key, js := alDel st.js key }, deleted)

/-- `sorted(keys)` over a duplicate-free set of stems. -/
def sortedKeys (l : List String) : List String :=
  (List.insertionSort (fun a b : String => strLE a b = true) l).dedup

/-- `FilesystemBackend.list_keys`: stems of `*.npz` and `*.json`, skipping
the metadata file `index.json`. -/
def fsListKeys (st : FsState) : List String :=
  sortedKeys (st.npz.map Prod.fst ++
    (st.js.map Prod.fst).filter (fun k => k ≠ "index"))

/-! The binary and model backends (`BinaryBackend`, `ModelBackend`).  The
manager's `save` never passes `metadata`, so the sidecar map is only ever
read and deleted here. -/

def binSave (st : BinState) (key : String) (data : PyVal) :
    Except PyErr (BinState × Artifact) :=
  match data with
  | .bytes b => .ok ({ st with dat := alSet st.dat key b }, .datA b)
  | _ => .error (.valueError "BinaryBackend expects bytes")

def binLoad (st : BinState) (key : String) : Except PyErr PyVal :=
  match alGet st.dat key with
  | some b => .ok (.bytes b)
  | Option.none => .error (.fileNotFoundError ("Cache key not found: " ++ key))

def binExists (st : BinState) (key : String) : Bool :=
  (alGet st.dat key).isSome

/-- `BinaryBackend.delete`: true only when the `.dat` file existed; the
`.meta.json` sidecar is removed without affecting the result. -/
def binDelete (st : BinState) (key : String) : BinState × Bool :=
  let deleted := (alGet st.dat key).isSome
  ({ dat := alDel st.dat key, meta := alDel st.meta key }, deleted)

def binListKeys (st : BinState) : List String :=
  sortedKeys (st.dat.map Prod.fst)

def modSave (st : ModState) (key : String) (data : PyVal) :
    Except PyErr (ModState × Artifact) :=
  if isDict data then
    .ok ({ st with pt := alSet st.pt key data }, .ptA data)
  else
    .error (.valueError "ModelBackend expects dict")

/-- `ModelBackend.load` with the default `map_location=None`. -/
def modLoad (st : ModState) (key : String) : Except PyErr PyVal :=
  match alGet st.pt key with
  | some d => .ok d
  | Option.none => .error (.fileNotFoundError ("Cache key not found: " ++ key))

def modExists (st : ModState) (key : String) : Bool :=
  (alGet st.pt key).isSome

def modDelete (st : ModState) (key : String) : ModState × Bool :=
  let deleted := (alGet st.pt key).isSome
  ({ pt := alDel st.pt key, meta := alDel st.meta key }, deleted)

def modListKeys (st : ModState) : List String :=
  sortedKeys (st.pt.map Prod.fst)

/-- One backend instance, dispatching the `CacheBackend` protocol. -/
inductive BackState where
  | fsB (st : FsState)
  | binB (st : BinState)
  | modB (st : ModState)
deriving DecidableEq, Repr

def backSave (bst : BackState) (key : String) (data : PyVal) :
    Except PyErr (BackState × Artifact) :=
  match bst with
  | .fsB st => (fsSave st key data).map (fun p => (.fsB p.1, p.2))
  | .binB st => (binSave st key data).map (fun p => (.binB p.1, p.2))
  | .modB st => (modSave st key data).map (fun p => (.modB p.1, p.2))

def backLoad (bst : BackState) (key : String) : Except PyErr PyVal :=
  match bst with
  | .fsB st => fsLoad st key
  | .binB st => binLoad st key
  | .modB st => modLoad st key

def backExists (bst : BackState) (key : String) : Bool :=
  match bst with
  | .fsB st => fsExists st key
  | .binB st => binExists st key
  | .modB st => modExists st key

def backDelete (bst : BackState) (key : String) : BackState × Bool :=
  match bst with
  | .fsB st => let p := fsDelete st key; (.fsB p.1, p.2)
  | .binB st => let p := binDelete st key; (.binB p.1, p.2)
  | .modB st => let p := modDelete st key; (.modB p.1, p.2)

def backListKeys (bst : BackState) : List String :=
  match bst with
  | .fsB st => fsListKeys st
  | .binB st => binListKeys st
  | .modB st => modListKeys st

/-! ### Cache manager (`cache_manager.py`) -/

/-- One row of the metadata index (`CacheEntry`).  Timestamps
(`datetime.utcnow().isoformat()`) are modelled as abstract ticks. -/
structure CacheEntry where
  key : String
  created_at : Nat
  size_bytes : Nat
  access_count : Nat
  last_accessed : Option Nat
  checksum : Option String
deriving DecidableEq, Repr

/-- The in-memory `self.metadata[category]` (the `version` / `created_at`
header fields of `index.json` are never read back and are omitted).
`total_size_mb` is the Python float `sum(size_bytes) / (1024*1024)`,
modelled exactly as a rational. -/
structure CatMeta where
  total_entries : Nat
  total_size_mb : ℚ
  entries : List (String × CacheEntry)
deriving DecidableEq, Repr

structure Manager where
  cats : List (String × (BackState × CatMeta))
  enable_checksums : Bool
  enable_stats : Bool
deriving DecidableEq, Repr

/-- `CacheManager._compute_checksum` on the bytes of the written artifact:
the chunked streaming read digests exactly the file's bytes. -/
def computeChecksum (enc : Artifact → List Nat) (a : Artifact) : String :=
  "sha256:" ++ sha256hex (enc a)

/-- `CacheManager._save_metadata` rewrites `index.json` in the category's
directory.  For a filesystem backend that file shares the artifact
namespace (reserved stem `"index"`); binary and model backends never look
at `.json` files, so there it is invisible and modelled as a no-op. -/
def writeIndexFile (bst : BackState) : BackState :=
  match bst with
  | .fsB st => .fsB { st with js := alSet st.js "index" .indexDoc }
  | b => b

def sumSizes (entries : List (String × CacheEntry)) : ℚ :=
  (entries.map (fun e => (e.2.size_bytes : ℚ))).sum

/-- The `CacheEntry` row written by `CacheManager.save`. -/
def savedEntry (enc : Artifact → List Nat) (checksums : Bool) (now : Nat)
    (key : String) (art : Artifact) : CacheEntry :=
  { key := key, created_at := now, size_bytes := (enc art).length,
    access_count := 0, last_accessed := Option.none,
    checksum := if checksums then some (computeChecksum enc art) else Option.none }

/-- The category metadata after `save` stores the entry and recomputes the
aggregates (`total_entries = len(entries)`,
`total_size_mb = sum(size_bytes) / (1024*1024)`). -/
def savedMeta (enc : Artifact → List Nat) (checksums : Bool) (now : Nat)
    (key : String) (art : Artifact) (meta : CatMeta) : CatMeta :=
  let entries' := alSet meta.entries key (savedEntry enc checksums now key art)
  { total_entries := entries'.length,
    total_size_mb := sumSizes entries' / (1024 * 1024),
    entries := entries' }

/-- `CacheManager.save`. -/
def mgrSave (enc : Artifact → List Nat) (m : Manager) (now : Nat)
    (cat key : String) (data : PyVal) : Except PyErr (Manager × Artifact) :=
  match alGet m.cats cat with
  | Option.none => .error (.keyError ("Unknown cache category: " ++ cat))
  | some (bst, meta) =>
    match backSave bst key data with
    | .error e => .error e
    | .ok (bst', art) =>
      if m.enable_stats then
        let meta' := savedMeta enc m.enable_checksums now key art meta
        .ok ({ m with cats := alSet m.cats cat (writeIndexFile bst', meta') }, art)
      else
        .ok ({ m with cats := alSet m.cats cat (bst', meta) }, art)

/-- `CacheManager.load`. -/
def mgrLoad (m : Manager) (now : Nat) (cat key : String) :
    Except PyErr (Manager × PyVal) :=
  match alGet m.cats cat with
  | Option.none => .error (.keyError ("Unknown cache category: " ++ cat))
  | some (bst, meta) =>
    if backExists bst key then
      match backLoad bst key with
      | .error e => .error e
      | .ok data =>
        if m.enable_stats then
          match alGet meta.entries key with
          | some e =>
            let e' :=
              { e with access_count := e.access_count + 1,
                       last_accessed := some now }
            let meta' := { meta with entries := alSet meta.entries key e' }
            .ok ({ m with cats := alSet m.cats cat (writeIndexFile bst, meta') },
                 data)
          | Option.none => .ok (m, data)
        else
          .ok (m, data)
    else
      .error (.keyError ("Cache key not found: " ++ cat ++ "/" ++ key))

/-- `CacheManager.exists`. -/
def mgrExists (m : Manager) (cat key : String) : Bool :=
  match alGet m.cats cat with
  | Option.none => false
  | some (bst, _) => backExists bst key

/-- `CacheManager.delete`. -/
def mgrDelete (m : Manager) (cat key : String) : Manager × Bool :=
  match alGet m.cats cat with
  | Option.none => (m, false)
  | some (bst, meta) =>
    let p := backDelete bst key
    if p.2 && m.enable_stats && (alGet meta.entries key).isSome then
      let entries' := alDel meta.entries key
      let meta' : CatMeta :=
        { total_entries := entries'.length,
          total_size_mb := sumSizes entries' / (1024 * 1024),
          entries := entries' }
      ({ m with cats := alSet m.cats cat (writeIndexFile p.1, meta') }, p.2)
    else
      ({ m with cats := alSet m.cats cat (p.1, meta) }, p.2)

/-- `CacheManager.clear_category`: delete every listed key, then reset the
category's metadata. -/
def mgrClearCategory (m : Manager) (cat : String) : Manager × Nat :=
  match alGet m.cats cat with
  | Option.none => (m, 0)
  | some (bst, meta) =>
    let cleared := (backListKeys bst).foldl
      (fun acc k =>
        let p := backDelete acc.1 k
        (p.1, acc.2 + cond p.2 1 0))
      (bst, 0)
    if m.enable_stats then
      let meta' : CatMeta := { total_entries := 0, total_size_mb := 0, entries := [] }
      ({ m with cats := alSet m.cats cat (writeIndexFile cleared.1, meta') },
       cleared.2)
    else
      ({ m with cats := alSet m.cats cat (cleared.1, meta) }, cleared.2)

def emptyMeta : CatMeta := { total_entries := 0, total_size_mb := 0, entries := [] }

/-- A freshly initialized category directory: empty, except for the
`index.json` created by `CacheManager._ensure_structure`. -/
def initFs : FsState := { npz := [], js := [("index", .indexDoc)] }

def initBin : BinState := { dat := [], meta := [] }

def initMod : ModState := { pt := [], meta := [] }

/-- `CacheManager.__init__` on a fresh root: the eight fixed categories,
each bound to its backend kind (`_init_backends`), with empty index files
(`_ensure_structure` / `_load_metadata`).  The `index.json` files created
in the binary / model category directories are invisible to those
backends. -/
def initManager (enable_checksums enable_stats : Bool) : Manager :=
  { cats :=
      [("fractional_kernels", (.fsB initFs, emptyMeta)),
       ("stencils", (.fsB initFs, emptyMeta)),
       ("fftw_wisdom", (.binB initBin, emptyMeta)),
       ("echo_templates", (.fsB initFs, emptyMeta)),
       ("state_profiles", (.fsB initFs, emptyMeta)),
       ("source_maps", (.fsB initFs, emptyMeta)),
       ("mission_graph", (.fsB initFs, emptyMeta)),
       ("surrogates", (.modB initMod, emptyMeta))],
    enable_checksums := enable_checksums,
    enable_stats := enable_stats }

/-! ### Mission runner (`mission_graph.py`: `CachedMissionRunner`)

`run_mission` only interacts with `self.cache` through `load` and `save`;
the runner is embedded generically over that interface (state type `σ`)
and instantiated with the concrete `Manager` below.  The node executor
`_execute_node` is an in-repo placeholder for domain-specific handlers
(spec §4.3: supplied by the caller, out of scope) and is a parameter. -/

structure CacheAPI (σ : Type) where
  load : σ → Nat → String → String → Except PyErr (σ × PyVal)
  save : σ → Nat → String → String → PyVal → Except PyErr (σ × Artifact)

/-- The concrete cache used by `CachedMissionRunner.__init__`
(`CacheManager(root=cache_root)`, default flags). -/
def mgrAPI (enc : Artifact → List Nat) : CacheAPI Manager :=
  { load := fun m now cat key => mgrLoad m now cat key,
    save := fun m now cat key v => mgrSave enc m now cat key v }

/-- The runner's `self.stats` dict: initialized once in `__init__` and
accumulated across `run_mission` calls. -/
structure RunnerStats where
  cache_hits : Nat
  cache_misses : Nat
  nodes_executed : Nat
  nodes_cached : Nat
deriving DecidableEq, Repr

structure RunnerState (σ : Type) where
  enable_cache : Bool
  cache : σ
  stats : RunnerStats

/-- `CachedMissionRunner._load_node_result`: `try: return cache.load(...)
except (FileNotFoundError, KeyError): return None`.  The exception
sentinel is Python `None` itself, so a successfully loaded stored `None`
is indistinguishable from a miss downstream.  Any other raised error
propagates. -/
def loadNodeResult {σ : Type} (api : CacheAPI σ) (s : σ) (now : Nat)
    (nid : String) : Except PyErr (σ × PyVal) :=
  match api.load s now "mission_graph" nid with
  | .ok (s', v) => .ok (s', v)
  | .error (.fileNotFoundError _) => .ok (s, PyVal.none)
  | .error (.keyError _) => .ok (s, PyVal.none)
  | .error e => .error e

/-- `CachedMissionRunner._save_node_result`: `except Exception` — a failed
cache write is swallowed (a warning is printed) and the run continues. -/
def saveNodeResult {σ : Type} (api : CacheAPI σ) (s : σ) (now : Nat)
    (nid : String) (result : PyVal) : σ :=
  match api.save s now "mission_graph" nid result with
  | .ok (s', _) => s'
  | .error _ => s

/-- The miss path of the `run_mission` loop body: execute the node, record
its result, cache it, and count a miss. -/
def execStep {σ : Type} (api : CacheAPI σ)
    (execNode : MissionNode → List (String × PyVal) → PyVal) (now : Nat)
    (nid : String) (node : MissionNode) (rs : RunnerState σ)
    (results : List (String × PyVal)) :
    RunnerState σ × List (String × PyVal) :=
  let result := execNode node results
  let results' := alSet results nid result
  let cache' :=
    if rs.enable_cache then saveNodeResult api rs.cache now nid result
    else rs.cache
  ({ rs with
      cache := cache',
      stats := { rs.stats with
        cache_misses := rs.stats.cache_misses + 1,
        nodes_executed := rs.stats.nodes_executed + 1 } }, results')

/-- The `for node_id in dag.execution_order` loop of `run_mission`: the
hit branch is guarded by `if cached_result is not None`, so a stored
`None` falls through to execution and is counted as a miss (against the
manager state left by the successful load). -/
def runLoop {σ : Type} (api : CacheAPI σ)
    (execNode : MissionNode → List (String × PyVal) → PyVal)
    (dag : MissionDAG) (force_recompute : Bool) (now : Nat)
    (rs : RunnerState σ) (results : List (String × PyVal)) :
    List String → Except PyErr (RunnerState σ × List (String × PyVal))
  | [] => .ok (rs, results)
  | nid :: rest =>
    let node := (alGet dag.nodes nid).getD
      { node_type := "", params := [], node_id := nid, dependencies := [] }
    if rs.enable_cache && !force_recompute then
      match loadNodeResult api rs.cache now nid with
      | .error e => .error e
      | .ok (c', cached_result) =>
          if cached_result ≠ PyVal.none then
            runLoop api execNode dag force_recompute now
              { rs with
                  cache := c',
                  stats := { rs.stats with
                    cache_hits := rs.stats.cache_hits + 1,
                    nodes_cached := rs.stats.nodes_cached + 1 } }
              (alSet results nid cached_result) rest
          else
            let st := execStep api execNode now nid node
              { rs with cache := c' } results
            runLoop api execNode dag force_recompute now st.1 st.2 rest
    else
      let st := execStep api execNode now nid node rs results
      runLoop api execNode dag force_recompute now st.1 st.2 rest

/-- What `run_mission` returns: the DAG, the per-node results map, and a
copy of the runner's (cumulative) stats. -/
structure RunResult where
  dag : MissionDAG
  node_results : List (String × PyVal)
  stats : RunnerStats
deriving DecidableEq, Repr

/-- `CachedMissionRunner.run_mission`. -/
def runMission {σ : Type} (api : CacheAPI σ)
    (execNode : MissionNode → List (String × PyVal) → PyVal)
    (rs : RunnerState σ) (now : Nat) (commands : List Command)
    (force_recompute : Bool) : Except PyErr (RunnerState σ × RunResult) :=
  let dag := buildDag commands
  match runLoop api execNode dag force_recompute now rs [] dag.execution_order with
  | .error e => .error e
  | .ok (rs', results) =>
      .ok (rs', { dag := dag, node_results := results, stats := rs'.stats })

/-- `CachedMissionRunner.__init__` with the defaults: caching enabled, a
fresh `CacheManager` (checksums and stats enabled), zeroed stats. -/
def initRunner : RunnerState Manager :=
  { enable_cache := true, cache := initManager true true,
    stats := { cache_hits := 0, cache_misses := 0,
               nodes_executed := 0, nodes_cached := 0 } }

/-! ### Association-list lemmas -/

/-- A Python dict has no duplicate keys; association lists representing
dicts (or directories) are well-formed when their keys are distinct. -/
def alWF {α : Type} (l : List (String × α)) : Prop := (l.map Prod.fst).Nodup

theorem alGet_alSet_self {α : Type} (l : List (String × α)) (k : String) (v : α) :
    alGet (alSet l k v) k = some v := by
  induction l with
  | nil => simp [alSet, alGet]
  | cons hd tl ih =>
    cases hd with
    | mk k₀ v₀ =>
      by_cases h : k₀ = k
      · simp [alSet, alGet, h]
      · simp [alSet, alGet, h, ih]

theorem alGet_alSet_ne {α : Type} (l : List (String × α)) (k k' : String) (v : α)
    (h : k' ≠ k) : alGet (alSet l k v) k' = alGet l k' := by
  have hne : ¬ (k = k') := fun hh => h hh.symm
  induction l with
  | nil => simp [alSet, alGet, hne]
  | cons hd tl ih =>
    cases hd with
    | mk k₀ v₀ =>
      by_cases h₀ : k₀ = k
      · subst h₀
        simp [alSet, alGet, hne]
      · by_cases h₁ : k₀ = k'
        · simp [alSet, alGet, h₀, h₁, hne, h]
        · simp [alSet, alGet, h₀, h₁, hne, ih]

theorem alGet_eq_none_of_not_mem_keys {α : Type} (l : List (String × α)) (k : String)
    (h : k ∉ l.map Prod.fst) : alGet l k = Option.none := by
  induction l with
  | nil => rfl
  | cons hd tl ih =>
    cases hd with
    | mk k₀ v₀ =>
      simp only [List.map_cons, List.mem_cons] at h
      push_neg at h
      simp only [alGet, if_neg (fun hh : k₀ = k => h.1 hh.symm)]
      exact ih h.2

theorem alGet_alDel_self {α : Type} (l : List (String × α)) (k : String)
    (h : alWF l) : alGet (alDel l k) k = Option.none := by
  induction l with
  | nil => rfl
  | cons hd tl ih =>
    cases hd with
    | mk k₀ v₀ =>
      simp only [alWF, List.map_cons, List.nodup_cons] at h
      by_cases h₀ : k₀ = k
      · subst h₀
        simp only [alDel, if_pos rfl]
        exact alGet_eq_none_of_not_mem_keys tl k₀ h.1
      · simp only [alDel, if_neg h₀, alGet, if_neg h₀]
        exact ih h.2

theorem alGet_alDel_ne {α : Type} (l : List (String × α)) (k k' : String)
    (h : k' ≠ k) : alGet (alDel l k) k' = alGet l k' := by
  induction l with
  | nil => rfl
  | cons hd tl ih =>
    cases hd with
    | mk k₀ v₀ =>
      have hne : ¬ (k = k') := fun hh => h hh.symm
      by_cases h₀ : k₀ = k
      · subst h₀
        simp [alDel, alGet, hne]
      · by_cases h₁ : k₀ = k'
        · simp [alDel, alGet, h₀, h₁, hne, h]
        · simp [alDel, alGet, h₀, h₁, hne, ih]

theorem alSet_of_alGet_none {α : Type} (l : List (String × α)) (k : String) (v : α)
    (h : alGet l k = Option.none) : alSet l k v = l ++ [(k, v)] := by
  induction l with
  | nil => simp [alSet]
  | cons hd tl ih =>
    cases hd with
    | mk k₀ v₀ =>
      by_cases h₀ : k₀ = k
      · simp [alGet, h₀] at h
      · simp only [alGet, if_neg h₀] at h
        simp [alSet, if_neg h₀, ih h]

theorem alGet_append_left {α : Type} (l₁ l₂ : List (String × α)) (k : String)
    (h : alGet l₁ k = Option.none) : alGet (l₁ ++ l₂) k = alGet l₂ k := by
  induction l₁ with
  | nil => simp
  | cons hd tl ih =>
    cases hd with
    | mk k₀ v₀ =>
      by_cases h₀ : k₀ = k
      · simp [alGet, h₀] at h
      · simp only [alGet, if_neg h₀] at h
        simpa [alGet, if_neg h₀] using ih h

theorem alGet_of_mem_nodup {α : Type} (l : List (String × α)) (k : String) (v : α)
    (hmem : (k, v) ∈ l) (hwf : alWF l) : alGet l k = some v := by
  induction l with
  | nil => simp at hmem
  | cons hd tl ih =>
    cases hd with
    | mk k₀ v₀ =>
      simp only [alWF, List.map_cons, List.nodup_cons] at hwf
      rcases List.mem_cons.mp hmem with h | h
      · cases h
        simp [alGet]
      · have hne : k₀ ≠ k :=
          fun hh => hwf.1 (List.mem_map.mpr ⟨(k, v), h, hh.symm⟩)
        simp only [alGet, if_neg hne]
        exact ih h hwf.2

/-! ### Backend-level lemmas -/

/-- Well-formedness of one backend's directory: no duplicate stems.  Every
state reachable through the manager satisfies this (files live in a real
directory). -/
def backWF : BackState → Prop
  | .fsB st => alWF st.npz ∧ alWF st.js
  | .binB st => alWF st.dat
  | .modB st => alWF st.pt

def fsBacked : BackState → Prop
  | .fsB _ => True
  | _ => False

/-- A sample byte encoder for concrete instantiations: raw bytes are stored
verbatim, other artifact encodings are irrelevant to the instantiated
facts. -/
def encSample : Artifact → List Nat :=
  fun a =>
    match a with
    | .datA b => b
    | _ => []

theorem backExists_backDelete_self (bst : BackState) (key : String)
    (hwf : backWF bst) : backExists (backDelete bst key).1 key = false := by
  cases bst with
  | fsB st =>
    simp [backExists, backDelete, fsExists, fsDelete,
      alGet_alDel_self st.npz key hwf.1, alGet_alDel_self st.js key hwf.2]
  | binB st =>
    simp [backExists, backDelete, binExists, binDelete,
      alGet_alDel_self st.dat key hwf]
  | modB st =>
    simp [backExists, backDelete, modExists, modDelete,
      alGet_alDel_self st.pt key hwf]

theorem backDelete_snd (bst : BackState) (key : String) :
    (backDelete bst key).2 = backExists bst key := by
  cases bst <;> rfl

theorem backExists_writeIndexFile (bst : BackState) (key : String)
    (hidx : fsBacked bst → key ≠ "index") :
    backExists (writeIndexFile bst) key = backExists bst key := by
  cases bst with
  | fsB st =>
    have hne : key ≠ "index" := hidx trivial
    simp [writeIndexFile, backExists, fsExists,
      alGet_alSet_ne st.js "index" key FsJson.indexDoc hne]
  | binB st => rfl
  | modB st => rfl

theorem fsSave_exists (st st' : FsState) (key : String) (data : PyVal)
    (art : Artifact) (h : fsSave st key data = .ok (st', art)) :
    fsExists st' key = true := by
  unfold fsSave at h
  split at h
  · cases h
    simp [fsExists, alGet_alSet_self]
  · split at h
    · cases h
      simp [fsExists, alGet_alSet_self]
    · split at h
      · cases h
        simp [fsExists, alGet_alSet_self]
      · cases h

theorem backSave_exists (bst bst' : BackState) (key : String) (data : PyVal)
    (art : Artifact) (hsave : backSave bst key data = .ok (bst', art)) :
    backExists bst' key = true := by
  cases bst with
  | fsB st =>
    simp only [backSave, Except.map] at hsave
    cases hfs : fsSave st key data with
    | ok p =>
      rw [hfs] at hsave
      cases hsave
      exact fsSave_exists st p.1 key data p.2 (by rw [hfs])
    | error e => rw [hfs] at hsave; cases hsave
  | binB st =>
    simp only [backSave, Except.map] at hsave
    cases hb : binSave st key data with
    | ok p =>
      rw [hb] at hsave
      cases hsave
      unfold binSave at hb
      split at hb
      · cases hb
        simp [backExists, binExists, alGet_alSet_self]
      · cases hb
    | error e => rw [hb] at hsave; cases hsave
  | modB st =>
    simp only [backSave, Except.map] at hsave
    cases hm : modSave st key data with
    | ok p =>
      rw [hm] at hsave
      cases hsave
      unfold modSave at hm
      split at hm
      · cases hm
        simp [backExists, modExists, alGet_alSet_self]
      · cases hm
    | error e => rw [hm] at hsave; cases hsave

theorem backExists_load (bst : BackState) (key : String)
    (hex : backExists bst key = true) : ∃ v, backLoad bst key = .ok v := by
  cases bst with
  | fsB st =>
    simp only [backExists, fsExists, Bool.or_eq_true, Option.isSome_iff_exists] at hex
    cases hnpz : alGet st.npz key with
    | some files =>
      cases hd : alGet files "data" with
      | some a =>
        exact ⟨.npArray a, by simp [backLoad, fsLoad, hnpz, hd]⟩
      | none =>
        exact ⟨pyDict (files.map (fun kv => (kv.1, PyVal.npArray kv.2))),
          by simp [backLoad, fsLoad, hnpz, hd]⟩
    | none =>
      rcases hex with ⟨files, hf⟩ | ⟨j, hj⟩
      · rw [hnpz] at hf
        cases hf
      · cases j with
        | doc v => exact ⟨v, by simp [backLoad, fsLoad, hnpz, hj]⟩
        | indexDoc => exact ⟨.dictNil, by simp [backLoad, fsLoad, hnpz, hj]⟩
  | binB st =>
    simp only [backExists, binExists, Option.isSome_iff_exists] at hex
    rcases hex with ⟨b, hb⟩
    exact ⟨.bytes b, by simp [backLoad, binLoad, hb]⟩
  | modB st =>
    simp only [backExists, modExists, Option.isSome_iff_exists] at hex
    rcases hex with ⟨d, hd⟩
    exact ⟨d, by simp [backLoad, modLoad, hd]⟩

/-! ### C10 -/

/-- C10: for a category name not in the registered set, `exists` returns
false, `delete` returns `(state unchanged, False)`, `clear_category`
returns 0, all without raising; only `save` and `load` raise the
unknown-category `KeyError`. -/
theorem unregistered_category_behavior (enc : Artifact → List Nat)
    (m : Manager) (now : Nat) (cat key : String) (data : PyVal)
    (h : alGet m.cats cat = Option.none) :
    mgrExists m cat key = false ∧
    mgrDelete m cat key = (m, false) ∧
    mgrClearCategory m cat = (m, 0) ∧
    (∃ msg, mgrSave enc m now cat key data = .error (.keyError msg)) ∧
    (∃ msg, mgrLoad m now cat key = .error (.keyError msg)) := by
  refine ⟨?_, ?_, ?_, ⟨"Unknown cache category: " ++ cat, ?_⟩,
    ⟨"Unknown cache category: " ++ cat, ?_⟩⟩ <;>
    simp [mgrExists, mgrDelete, mgrClearCategory, mgrSave, mgrLoad, h]

theorem unregistered_category_behavior_witness :
    alGet (initManager true true).cats "bogus" = Option.none ∧
    (mgrExists (initManager true true) "bogus" "k" = false ∧
     mgrDelete (initManager true true) "bogus" "k" = (initManager true true, false) ∧
     mgrClearCategory (initManager true true) "bogus" = (initManager true true, 0) ∧
     (∃ msg, mgrSave encSample (initManager true true) 0 "bogus" "k" PyVal.none =
        .error (.keyError msg)) ∧
     (∃ msg, mgrLoad (initManager true true) 0 "bogus" "k" =
        .error (.keyError msg))) :=
  ⟨by decide,
   unregistered_category_behavior encSample (initManager true true) 0 "bogus" "k"
     PyVal.none (by decide)⟩

/-! ### C9 -/

/-- C9 counterexample: the claim "Delete on a key with no stored artifact
returns false" and "Delete then Exists returns false" both fail at the
reserved key `"index"` of a filesystem-backed category: `index.json` (the
metadata file) shares the `<key>.json` artifact namespace.  On a fresh
manager no artifact was ever stored, yet `delete("stencils", "index")`
deletes the metadata file and returns True; and after saving an artifact
under `"index"` (stats on), delete-then-exists returns True because
`_save_metadata` recreates `index.json`. -/
def c9probe : Bool :=
  match mgrSave encSample (initManager false true) 0 "stencils" "index"
      (PyVal.int 1) with
  | .ok (m₁, _) => mgrExists (mgrDelete m₁ "stencils" "index").1 "stencils" "index"
  | .error _ => false

theorem delete_index_counterexample :
    (mgrDelete (initManager true true) "stencils" "index").2 = true ∧
    c9probe = true := by decide

/-- C9 amended: for every registered category and key — excluding the
reserved stem `"index"` when the category's backend is a
`FilesystemBackend` — `Delete` followed by `Exists` returns false, and
`Delete` of an absent key returns false (and, being a total function,
raises nothing). -/
theorem delete_then_exists (m : Manager) (cat key : String) (bst : BackState)
    (meta : CatMeta) (hcat : alGet m.cats cat = some (bst, meta))
    (hwf : backWF bst) (hidx : fsBacked bst → key ≠ "index") :
    mgrExists (mgrDelete m cat key).1 cat key = false ∧
    (backExists bst key = false → (mgrDelete m cat key).2 = false) := by
  constructor
  · have hdel : backExists (backDelete bst key).1 key = false :=
      backExists_backDelete_self bst key hwf
    have hfsdel : fsBacked (backDelete bst key).1 → key ≠ "index" := by
      cases bst with
      | fsB st => exact fun _ => hidx trivial
      | binB st => exact fun hh => absurd hh (by simp [backDelete, fsBacked])
      | modB st => exact fun hh => absurd hh (by simp [backDelete, fsBacked])
    simp only [mgrDelete, hcat]
    by_cases hc : ((backDelete bst key).2 && m.enable_stats
        && (alGet meta.entries key).isSome) = true
    · rw [if_pos hc]
      simp only [mgrExists, alGet_alSet_self]
      rw [backExists_writeIndexFile _ _ hfsdel]
      exact hdel
    · rw [if_neg hc]
      simp only [mgrExists, alGet_alSet_self]
      exact hdel
  · intro habs
    simp only [mgrDelete, hcat]
    rw [backDelete_snd, habs]
    simp

theorem delete_then_exists_witness :
    (alGet (initManager true true).cats "fftw_wisdom" =
      some (.binB initBin, emptyMeta)) ∧
    (mgrExists (mgrDelete (initManager true true) "fftw_wisdom" "k").1
        "fftw_wisdom" "k" = false ∧
     (backExists (.binB initBin) "k" = false →
       (mgrDelete (initManager true true) "fftw_wisdom" "k").2 = false)) :=
  ⟨by decide,
   delete_then_exists (initManager true true) "fftw_wisdom" "k" (.binB initBin)
     emptyMeta (by decide) (by simp [backWF, alWF, initBin])
     (fun hh => absurd hh (by simp [fsBacked]))⟩

/-! ### C7 -/

/-- The artifact currently held by the backend under `key` (the file that
`load` would read). -/
def currentArtifact (bst : BackState) (key : String) : Option Artifact :=
  match bst with
  | .fsB st =>
    match alGet st.npz key with
    | some files => some (.npzA files)
    | Option.none =>
      match alGet st.js key with
      | some (.doc v) => some (.jsonA v)
      | _ => Option.none
  | .binB st => (alGet st.dat key).map .datA
  | .modB st => (alGet st.pt key).map .ptA

/-- C7: ordinary `load` never recomputes or compares the stored checksum.
Even when an entry's stored checksum does not match the digest of the
bytes the backend currently holds, `load` succeeds and returns the current
backend payload (the embedded error type has no integrity-mismatch
constructor at all; `load` raises only unknown-category / not-found
`KeyError`). -/
theorem load_ignores_checksum (enc : Artifact → List Nat) (m : Manager)
    (now : Nat) (cat key : String) (bst : BackState) (meta : CatMeta)
    (e : CacheEntry) (v : PyVal) (a : Artifact)
    (hcat : alGet m.cats cat = some (bst, meta))
    (hex : backExists bst key = true)
    (hload : backLoad bst key = .ok v)
    (hentry : alGet meta.entries key = some e)
    (_hart : currentArtifact bst key = some a)
    (_hmismatch : e.checksum ≠ some (computeChecksum enc a)) :
    ∃ m', mgrLoad m now cat key = .ok (m', v) := by
  simp only [mgrLoad, hcat, hex, if_true, hload]
  cases hst : m.enable_stats
  · exact ⟨m, rfl⟩
  · simp only [hentry]
    exact ⟨_, rfl⟩

def c7fs : FsState :=
  { npz := [], js := [("index", .indexDoc), ("k", .doc (PyVal.int 1))] }

def c7entry : CacheEntry :=
  { key := "k", created_at := 0, size_bytes := 2, access_count := 0,
    last_accessed := Option.none, checksum := some "sha256:bogus" }

def c7meta : CatMeta :=
  { total_entries := 1, total_size_mb := 2 / (1024 * 1024),
    entries := [("k", c7entry)] }

/-- A manager whose only visible state is a json artifact whose stored
checksum no longer matches its current bytes. -/
def c7state : Manager :=
  { cats := [("stencils", (.fsB c7fs, c7meta))],
    enable_checksums := true, enable_stats := true }

set_option maxRecDepth 400000 in
theorem load_ignores_checksum_witness :
    c7entry.checksum ≠ some (computeChecksum encSample (.jsonA (PyVal.int 1))) ∧
    (∃ m', mgrLoad c7state 0 "stencils" "k" = .ok (m', PyVal.int 1)) :=
  ⟨by decide,
   load_ignores_checksum encSample c7state 0 "stencils" "k" (.fsB c7fs) c7meta
     c7entry (PyVal.int 1) (.jsonA (PyVal.int 1)) rfl rfl rfl rfl rfl
     (by decide)⟩

/-! ### C6 -/

/-- C6: a successful `save` into a registered category (stats enabled)
writes or overwrites the key's `CacheEntry` with `created_at = now`,
`size_bytes` the written artifact's byte length, `access_count` reset to 0
(the entry is rebuilt from scratch, so a previously loaded entry is
reset too), no `last_accessed`, and checksum `"sha256:" ++ hexdigest` of
the artifact's bytes exactly when checksumming is enabled. -/
theorem save_writes_entry (enc : Artifact → List Nat) (m : Manager)
    (now : Nat) (cat key : String) (data : PyVal) (bst : BackState)
    (meta : CatMeta) (bst' : BackState) (art : Artifact)
    (hst : m.enable_stats = true)
    (hcat : alGet m.cats cat = some (bst, meta))
    (hsave : backSave bst key data = .ok (bst', art)) :
    ∃ m' meta', mgrSave enc m now cat key data = .ok (m', art) ∧
      alGet m'.cats cat = some (writeIndexFile bst', meta') ∧
      alGet meta'.entries key = some
        { key := key, created_at := now, size_bytes := (enc art).length,
          access_count := 0, last_accessed := Option.none,
          checksum :=
            if m.enable_checksums then some ("sha256:" ++ sha256hex (enc art))
            else Option.none } := by
  simp only [mgrSave, hcat, hsave, hst, if_true]
  refine ⟨_, savedMeta enc m.enable_checksums now key art meta, rfl,
    alGet_alSet_self _ _ _, ?_⟩
  simp only [savedMeta]
  exact alGet_alSet_self _ _ _

/-- An entry that was loaded five times before being overwritten. -/
def c6oldEntry : CacheEntry :=
  { key := "k", created_at := 0, size_bytes := 7, access_count := 5,
    last_accessed := some 3, checksum := Option.none }

def c6meta : CatMeta :=
  { total_entries := 1, total_size_mb := 7 / (1024 * 1024),
    entries := [("k", c6oldEntry)] }

def c6state : Manager :=
  { cats := [("stencils", (.fsB c7fs, c6meta))],
    enable_checksums := true, enable_stats := true }

/-- The backend state after the overwriting save below. -/
def c6fsAfter : FsState :=
  { npz := [], js := [("index", .indexDoc), ("k", .doc (PyVal.int 2))] }

theorem save_writes_entry_witness :
    (alGet c6meta.entries "k" = some c6oldEntry ∧ c6oldEntry.access_count = 5) ∧
    (∃ m' meta', mgrSave encSample c6state 9 "stencils" "k" (PyVal.int 2) =
        .ok (m', .jsonA (PyVal.int 2)) ∧
      alGet m'.cats "stencils" = some (writeIndexFile (.fsB c6fsAfter), meta') ∧
      alGet meta'.entries "k" = some
        { key := "k", created_at := 9,
          size_bytes := (encSample (.jsonA (PyVal.int 2))).length,
          access_count := 0, last_accessed := Option.none,
          checksum :=
            if c6state.enable_checksums then
              some ("sha256:" ++ sha256hex (encSample (.jsonA (PyVal.int 2))))
            else Option.none }) :=
  ⟨⟨rfl, rfl⟩,
   save_writes_entry encSample c6state 9 "stencils" "k" (PyVal.int 2)
     (.fsB c7fs) c6meta (.fsB c6fsAfter) (.jsonA (PyVal.int 2)) rfl rfl rfl⟩

/-! ### C4 -/

/-- Generic manager-save structure lemma: a successful backend save yields
a successful manager save whose category now holds the new backend state
(with the index file rewritten when stats are on). -/
theorem mgrSave_ok_cats (enc : Artifact → List Nat) (m : Manager) (now : Nat)
    (cat key : String) (data : PyVal) (bst : BackState) (meta : CatMeta)
    (bst' : BackState) (art : Artifact)
    (hcat : alGet m.cats cat = some (bst, meta))
    (hsave : backSave bst key data = .ok (bst', art)) :
    ∃ m' meta', mgrSave enc m now cat key data = .ok (m', art) ∧
      alGet m'.cats cat =
        some ((if m.enable_stats then writeIndexFile bst' else bst'), meta') := by
  simp only [mgrSave, hcat, hsave]
  cases hst : m.enable_stats
  · refine ⟨_, meta, rfl, ?_⟩
    simp [alGet_alSet_self]
  · refine ⟨_, savedMeta enc m.enable_checksums now key art meta, rfl, ?_⟩
    simp [alGet_alSet_self]

/-- Generic manager-load lemma: when the backend holds the key, `load`
succeeds and returns exactly the backend's payload. -/
theorem mgrLoad_ok (m : Manager) (now : Nat) (cat key : String)
    (bst : BackState) (meta : CatMeta) (v : PyVal)
    (hcat : alGet m.cats cat = some (bst, meta))
    (hex : backExists bst key = true)
    (hload : backLoad bst key = .ok v) :
    ∃ m', mgrLoad m now cat key = .ok (m', v) := by
  simp only [mgrLoad, hcat, hex, if_true, hload]
  cases m.enable_stats
  · exact ⟨m, rfl⟩
  · cases alGet meta.entries key
    · exact ⟨m, rfl⟩
    · exact ⟨_, rfl⟩

/-- Rebuilding a dict of arrays from its extracted named arrays gives back
the original value. -/
theorem pyDict_dictArrays (v : PyVal) (h : isDictOfArrays v = true) :
    pyDict ((dictArrays v).map (fun kv => (kv.1, PyVal.npArray kv.2))) = v := by
  induction v <;>
    first
    | rfl
    | simp_all [isDictOfArrays]
    | (rename_i k val rest ih₁ ih₂
       cases val <;> simp_all [isDictOfArrays, dictArrays, pyDict])

/-- `Save(cat, key, x)` then `Load(cat, key)`, returning the loaded value
(`None` when either step raises). -/
def saveThenLoad (enc : Artifact → List Nat) (m : Manager) (now now' : Nat)
    (cat key : String) (data : PyVal) : Option PyVal :=
  match mgrSave enc m now cat key data with
  | .ok (m₁, _) =>
    match mgrLoad m₁ now' cat key with
    | .ok (_, v) => some v
    | .error _ => Option.none
  | .error _ => Option.none

/-- The payload/state combinations for which the save/load round trip is
exact: numpy arrays always; mappings of arrays as long as they do not use
the reserved archive name `"data"`; JSON documents as long as no stale
`<key>.npz` shadows the `.json` file and (with stats on) the key is not
the reserved stem `"index"`; raw bytes; and any model dict. -/
def roundTripSafe (m : Manager) (bst : BackState) (key : String)
    (data : PyVal) : Bool :=
  match bst with
  | .fsB st =>
    isNpArray data ||
    (isDictOfArrays data && (alGet (dictArrays data) "data").isNone) ||
    (!(isDictOfArrays data) && jsonSerializable data &&
      (alGet st.npz key).isNone && (!m.enable_stats || key != "index"))
  | .binB _ => (match data with | .bytes _ => true | _ => false)
  | .modB _ => isDict data

/-- C4 counterexample: the claim fails for the supported shape "mapping of
numeric arrays" whenever the mapping uses the key `"data"`:
`FilesystemBackend.save` stores the mapping as an `.npz` archive and
`load` returns the bare array stored under the archive name `"data"`.
`Save` of `x = {"data": array([1])}` followed by `Load` returns
`array([1]) ≠ x`. -/
theorem round_trip_counterexample :
    saveThenLoad encSample (initManager false false) 0 0 "stencils" "k"
        (pyDict [("data", PyVal.npArray [1])]) =
      some (PyVal.npArray [1]) ∧
    PyVal.npArray [1] ≠ pyDict [("data", PyVal.npArray [1])] := by decide

/-- C4 amended: `Save(cat, key, x)` followed by `Load(cat, key)` returns a
value equal to `x` for every supported payload shape, except that (a) a
mapping of numeric arrays containing the reserved archive name `"data"`
loads back as the bare array stored under that name, and (b) a JSON
document is shadowed by a stale `<key>.npz` artifact of a previous save
and, when stats are enabled, by the reserved key `"index"`. -/
theorem round_trip (enc : Artifact → List Nat) (m : Manager) (now now' : Nat)
    (cat key : String) (data : PyVal) (bst : BackState) (meta : CatMeta)
    (hcat : alGet m.cats cat = some (bst, meta))
    (hsafe : roundTripSafe m bst key data = true) :
    saveThenLoad enc m now now' cat key data = some data := by
  cases bst with
  | fsB st =>
    simp only [roundTripSafe, Bool.or_eq_true, Bool.and_eq_true] at hsafe
    rcases hsafe with (hnp | ⟨hda, hnod⟩) | ⟨⟨⟨hnda, hser⟩, hnpz⟩, hguard⟩
    · -- numpy array payload: stored as npz under the archive name "data"
      cases data <;> simp [isNpArray] at hnp
      rename_i a
      have hsave : backSave (.fsB st) key (.npArray a) =
          .ok (.fsB { st with npz := alSet st.npz key [("data", a)] },
               .npzA [("data", a)]) := by
        simp [backSave, fsSave, Except.map]
      rcases mgrSave_ok_cats enc m now cat key _ _ meta _ _ hcat hsave with
        ⟨m₁, meta', hok, hcats⟩
      have hX : ∃ J, (if m.enable_stats then
          writeIndexFile (.fsB { st with npz := alSet st.npz key [("data", a)] })
          else .fsB { st with npz := alSet st.npz key [("data", a)] }) =
          .fsB { npz := alSet st.npz key [("data", a)], js := J } := by
        cases m.enable_stats <;> exact ⟨_, rfl⟩
      rcases hX with ⟨J, hJ⟩
      rw [hJ] at hcats
      have hex : backExists (.fsB { npz := alSet st.npz key [("data", a)], js := J })
          key = true := by
        simp [backExists, fsExists, alGet_alSet_self]
      have hload : backLoad (.fsB { npz := alSet st.npz key [("data", a)], js := J })
          key = .ok (.npArray a) := by
        simp [backLoad, fsLoad, alGet_alSet_self, alGet]
      rcases mgrLoad_ok m₁ now' cat key _ _ _ hcats hex hload with ⟨m₂, hok₂⟩
      simp [saveThenLoad, hok, hok₂]
    · -- mapping of arrays, archive name "data" unused
      have hsave : backSave (.fsB st) key data =
          .ok (.fsB { st with npz := alSet st.npz key (dictArrays data) },
               .npzA (dictArrays data)) := by
        cases data <;> simp_all [backSave, fsSave, Except.map, isDictOfArrays]
      rcases mgrSave_ok_cats enc m now cat key _ _ meta _ _ hcat hsave with
        ⟨m₁, meta', hok, hcats⟩
      have hX : ∃ J, (if m.enable_stats then
          writeIndexFile (.fsB { st with npz := alSet st.npz key (dictArrays data) })
          else .fsB { st with npz := alSet st.npz key (dictArrays data) }) =
          .fsB { npz := alSet st.npz key (dictArrays data), js := J } := by
        cases m.enable_stats <;> exact ⟨_, rfl⟩
      rcases hX with ⟨J, hJ⟩
      rw [hJ] at hcats
      have hex : backExists
          (.fsB { npz := alSet st.npz key (dictArrays data), js := J }) key = true := by
        simp [backExists, fsExists, alGet_alSet_self]
      have hload : backLoad
          (.fsB { npz := alSet st.npz key (dictArrays data), js := J }) key =
          .ok data := by
        have hnone : alGet (dictArrays data) "data" = Option.none :=
          Option.isNone_iff_eq_none.mp hnod
        simp [backLoad, fsLoad, alGet_alSet_self, hnone, pyDict_dictArrays data hda]
      rcases mgrLoad_ok m₁ now' cat key _ _ _ hcats hex hload with ⟨m₂, hok₂⟩
      simp [saveThenLoad, hok, hok₂]
    · -- JSON document payload
      have hnnp : isNpArray data = false := by
        cases data <;> simp_all [isNpArray, jsonSerializable]
      have hsave : backSave (.fsB st) key data =
          .ok (.fsB { st with js := alSet st.js key (.doc data) }, .jsonA data) := by
        cases data <;>
          simp_all [backSave, fsSave, Except.map, isNpArray, Bool.not_eq_true',
            jsonSerializable, isDictOfArrays]
      rcases mgrSave_ok_cats enc m now cat key _ _ meta _ _ hcat hsave with
        ⟨m₁, meta', hok, hcats⟩
      have hjs : ∃ J, (if m.enable_stats then
            writeIndexFile (.fsB { st with js := alSet st.js key (.doc data) })
            else .fsB { st with js := alSet st.js key (.doc data) }) =
            .fsB { npz := st.npz, js := J } ∧ alGet J key = some (.doc data) := by
        cases hst : m.enable_stats
        · exact ⟨_, rfl, alGet_alSet_self _ _ _⟩
        · refine ⟨_, rfl, ?_⟩
          have hne : key ≠ "index" := by
            rcases hguard with hg | hg
            · rw [hst] at hg
              simp at hg
            · simpa using hg
          rw [alGet_alSet_ne _ "index" key _ hne]
          exact alGet_alSet_self _ _ _
      rcases hjs with ⟨J, hJ, hgetJ⟩
      rw [hJ] at hcats
      have hnpz' : alGet st.npz key = Option.none :=
        Option.isNone_iff_eq_none.mp hnpz
      have hex : backExists (.fsB { npz := st.npz, js := J }) key = true := by
        simp [backExists, fsExists, hgetJ]
      have hload : backLoad (.fsB { npz := st.npz, js := J }) key = .ok data := by
        simp [backLoad, fsLoad, hnpz', hgetJ]
      rcases mgrLoad_ok m₁ now' cat key _ _ _ hcats hex hload with ⟨m₂, hok₂⟩
      simp [saveThenLoad, hok, hok₂]
  | binB st =>
    simp only [roundTripSafe] at hsafe
    cases data <;> simp at hsafe
    rename_i b
    have hsave : backSave (.binB st) key (.bytes b) =
        .ok (.binB { st with dat := alSet st.dat key b }, .datA b) := by
      simp [backSave, binSave, Except.map]
    rcases mgrSave_ok_cats enc m now cat key _ _ meta _ _ hcat hsave with
      ⟨m₁, meta', hok, hcats⟩
    have hJ : (if m.enable_stats then
        writeIndexFile (.binB { st with dat := alSet st.dat key b })
        else .binB { st with dat := alSet st.dat key b }) =
        .binB { st with dat := alSet st.dat key b } := by
      cases m.enable_stats <;> rfl
    rw [hJ] at hcats
    have hex : backExists (.binB { st with dat := alSet st.dat key b }) key = true := by
      simp [backExists, binExists, alGet_alSet_self]
    have hload : backLoad (.binB { st with dat := alSet st.dat key b }) key =
        .ok (.bytes b) := by
      simp [backLoad, binLoad, alGet_alSet_self]
    rcases mgrLoad_ok m₁ now' cat key _ _ _ hcats hex hload with ⟨m₂, hok₂⟩
    simp [saveThenLoad, hok, hok₂]
  | modB st =>
    simp only [roundTripSafe] at hsafe
    have hsave : backSave (.modB st) key data =
        .ok (.modB { st with pt := alSet st.pt key data }, .ptA data) := by
      simp [backSave, modSave, Except.map, hsafe]
    rcases mgrSave_ok_cats enc m now cat key _ _ meta _ _ hcat hsave with
      ⟨m₁, meta', hok, hcats⟩
    have hJ : (if m.enable_stats then
        writeIndexFile (.modB { st with pt := alSet st.pt key data })
        else .modB { st with pt := alSet st.pt key data }) =
        .modB { st with pt := alSet st.pt key data } := by
      cases m.enable_stats <;> rfl
    rw [hJ] at hcats
    have hex : backExists (.modB { st with pt := alSet st.pt key data }) key = true := by
      simp [backExists, modExists, alGet_alSet_self]
    have hload : backLoad (.modB { st with pt := alSet st.pt key data }) key =
        .ok data := by
      simp [backLoad, modLoad, alGet_alSet_self]
    rcases mgrLoad_ok m₁ now' cat key _ _ _ hcats hex hload with ⟨m₂, hok₂⟩
    simp [saveThenLoad, hok, hok₂]

theorem round_trip_witness :
    (alGet (initManager true true).cats "fftw_wisdom" =
      some (.binB initBin, emptyMeta) ∧
     roundTripSafe (initManager true true) (.binB initBin) "k"
       (PyVal.bytes [0, 1, 2]) = true) ∧
    saveThenLoad encSample (initManager true true) 0 1 "fftw_wisdom" "k"
      (PyVal.bytes [0, 1, 2]) = some (PyVal.bytes [0, 1, 2]) :=
  ⟨⟨by decide, by decide⟩,
   round_trip encSample (initManager true true) 0 1 "fftw_wisdom" "k"
     (PyVal.bytes [0, 1, 2]) (.binB initBin) emptyMeta (by decide) (by decide)⟩

/-! ### C3 -/

theorem alGet_mem {α : Type} (l : List (String × α)) (k : String) (v : α)
    (h : alGet l k = some v) : (k, v) ∈ l := by
  induction l with
  | nil => simp [alGet] at h
  | cons hd tl ih =>
    cases hd with
    | mk k₀ v₀ =>
      by_cases h₀ : k₀ = k
      · subst h₀
        simp only [alGet, if_pos rfl] at h
        cases h
        exact List.mem_cons_self _ _
      · simp only [alGet, if_neg h₀] at h
        exact List.mem_cons_of_mem _ (ih h)

theorem mem_alSet {α : Type} (l : List (String × α)) (k : String) (v : α)
    (c : String × α) : c ∈ alSet l k v → c = (k, v) ∨ c ∈ l := by
  induction l with
  | nil =>
    intro h
    simpa [alSet] using h
  | cons hd tl ih =>
    cases hd with
    | mk k₀ v₀ =>
      intro h
      by_cases h₀ : k₀ = k
      · subst h₀
        simp [alSet] at h
        rcases h with h1 | h1
        · exact Or.inl h1
        · exact Or.inr (List.mem_cons_of_mem _ h1)
      · simp [alSet, h₀] at h
        rcases h with h1 | h1
        · exact Or.inr (List.mem_cons.mpr (Or.inl h1))
        · rcases ih h1 with h2 | h2
          · exact Or.inl h2
          · exact Or.inr (List.mem_cons_of_mem _ h2)

/-- One save / delete / clear-category call against the manager, with the
state kept and the result discarded.  A save whose backend raises leaves
the state unchanged: the exception propagates before any metadata
mutation. -/
inductive MOp where
  | saveOp (now : Nat) (cat key : String) (data : PyVal)
  | deleteOp (cat key : String)
  | clearOp (cat : String)

def applyOp (enc : Artifact → List Nat) (m : Manager) : MOp → Manager
  | .saveOp now cat key data =>
    match mgrSave enc m now cat key data with
    | .ok p => p.1
    | .error _ => m
  | .deleteOp cat key => (mgrDelete m cat key).1
  | .clearOp cat => (mgrClearCategory m cat).1

def applyOps (enc : Artifact → List Nat) : Manager → List MOp → Manager
  | m, [] => m
  | m, op :: ops => applyOps enc (applyOp enc m op) ops

/-- The §3 category-index invariant: the stored aggregates agree with the
entry table. -/
def metaConsistent (meta : CatMeta) : Prop :=
  meta.total_entries = meta.entries.length ∧
  meta.total_size_mb = sumSizes meta.entries / (1024 * 1024)

def indexConsistent (m : Manager) : Prop :=
  ∀ c ∈ m.cats, metaConsistent c.2.2

theorem metaConsistent_emptyMeta : metaConsistent emptyMeta :=
  ⟨rfl, by simp [sumSizes, emptyMeta]⟩

/-- Every single operation preserves the invariant: a mutation either
leaves a category's metadata untouched or recomputes both aggregates from
the new entry table. -/
theorem indexConsistent_applyOp (enc : Artifact → List Nat) (m : Manager)
    (op : MOp) (h : indexConsistent m) : indexConsistent (applyOp enc m op) := by
  cases op with
  | saveOp now cat key data =>
    simp only [applyOp]
    cases halg : alGet m.cats cat with
    | none => simpa [mgrSave, halg] using h
    | some p =>
      cases p with
      | mk bst meta =>
        cases hbs : backSave bst key data with
        | error e => simpa [mgrSave, halg, hbs] using h
        | ok q =>
          cases q with
          | mk bst' art =>
            cases hst : m.enable_stats with
            | false =>
              simp only [mgrSave, halg, hbs, hst, Bool.false_eq_true, if_false]
              intro c hc
              rcases mem_alSet _ _ _ _ hc with hc | hc
              · subst hc
                exact h (cat, (bst, meta)) (alGet_mem _ _ _ halg)
              · exact h _ hc
            | true =>
              simp only [mgrSave, halg, hbs, hst, if_true]
              intro c hc
              rcases mem_alSet _ _ _ _ hc with hc | hc
              · subst hc
                exact ⟨rfl, rfl⟩
              · exact h _ hc
  | deleteOp cat key =>
    simp only [applyOp]
    cases halg : alGet m.cats cat with
    | none => simpa [mgrDelete, halg] using h
    | some p =>
      cases p with
      | mk bst meta =>
        simp only [mgrDelete, halg]
        by_cases hc₀ : ((backDelete bst key).2 && m.enable_stats
            && (alGet meta.entries key).isSome) = true
        · rw [if_pos hc₀]
          intro c hc
          rcases mem_alSet _ _ _ _ hc with hc | hc
          · subst hc
            exact ⟨rfl, rfl⟩
          · exact h _ hc
        · rw [if_neg hc₀]
          intro c hc
          rcases mem_alSet _ _ _ _ hc with hc | hc
          · subst hc
            exact h (cat, (bst, meta)) (alGet_mem _ _ _ halg)
          · exact h _ hc
  | clearOp cat =>
    simp only [applyOp]
    cases halg : alGet m.cats cat with
    | none => simpa [mgrClearCategory, halg] using h
    | some p =>
      cases p with
      | mk bst meta =>
        cases hst : m.enable_stats with
        | false =>
          simp only [mgrClearCategory, halg, hst, Bool.false_eq_true, if_false]
          intro c hc
          rcases mem_alSet _ _ _ _ hc with hc | hc
          · subst hc
            exact h (cat, (bst, meta)) (alGet_mem _ _ _ halg)
          · exact h _ hc
        | true =>
          simp only [mgrClearCategory, halg, hst, if_true]
          intro c hc
          rcases mem_alSet _ _ _ _ hc with hc | hc
          · subst hc
            exact ⟨rfl, by simp [sumSizes]⟩
          · exact h _ hc

theorem indexConsistent_init (checksums stats : Bool) :
    indexConsistent (initManager checksums stats) := by
  intro c hc
  simp only [initManager, List.mem_cons, List.not_mem_nil, or_false] at hc
  rcases hc with hc | hc | hc | hc | hc | hc | hc | hc <;>
    (subst hc; exact metaConsistent_emptyMeta)

/-- C3: for every sequence of save / delete / clear-category operations on
a fresh manager with stats enabled, the category index of every category
satisfies `total_entries = |entries|` and
`total_size_mb = sum(size_bytes) / (1024*1024)` immediately after each
operation (the sequence is arbitrary, so every prefix is an instance;
`total_size_mb`, a Python float in the source, is modelled as an exact
rational). -/
theorem aggregate_consistency (enc : Artifact → List Nat) (checksums : Bool)
    (ops : List MOp) :
    indexConsistent (applyOps enc (initManager checksums true) ops) := by
  have hgen : ∀ (ops : List MOp) (m : Manager), indexConsistent m →
      indexConsistent (applyOps enc m ops) := by
    intro ops
    induction ops with
    | nil => intro m hm; exact hm
    | cons op rest ih =>
      intro m hm
      exact ih _ (indexConsistent_applyOp enc m op hm)
  exact hgen ops _ (indexConsistent_init checksums true)

/-! ### C5 -/

theorem backExists_writeIndexFile_mono (bst : BackState) (key : String)
    (h : backExists bst key = true) :
    backExists (writeIndexFile bst) key = true := by
  cases bst with
  | fsB st =>
    by_cases hk : key = "index"
    · subst hk
      simp [writeIndexFile, backExists, fsExists, alGet_alSet_self]
    · simpa [writeIndexFile, backExists, fsExists,
        alGet_alSet_ne st.js "index" key _ hk] using h
  | binB st => exact h
  | modB st => exact h

/-- `n` consecutive `Load(cat, key)` calls at the given timestamps,
propagating the metadata updates. -/
def loadSeq (m : Manager) (cat key : String) : List Nat → Except PyErr Manager
  | [] => .ok m
  | t :: ts =>
    match mgrLoad m t cat key with
    | .ok p => loadSeq p.1 cat key ts
    | .error e => .error e

/-- The `last_accessed` value after the loads of `ts`, starting from `la`:
the last timestamp when there is one. -/
def lastOf (la : Option Nat) : List Nat → Option Nat
  | [] => la
  | t :: ts => lastOf (some t) ts

theorem lastOf_cons_getLast (ts : List Nat) :
    ∀ t : Nat, lastOf (some t) ts = (t :: ts).getLast? := by
  induction ts with
  | nil => intro t; rfl
  | cons u ts ih =>
    intro t
    rw [List.getLast?_cons_cons]
    exact ih u

theorem lastOf_none_getLast (ts : List Nat) :
    lastOf Option.none ts = ts.getLast? := by
  cases ts with
  | nil => rfl
  | cons t ts => exact lastOf_cons_getLast ts t

/-- The state fragment the access-accounting induction tracks: stats on,
the key present in the backend, and its entry carrying the given
`access_count` / `last_accessed`. -/
def entryTracked (m : Manager) (cat key : String) (c : Nat)
    (la : Option Nat) : Prop :=
  m.enable_stats = true ∧
  ∃ bst meta e, alGet m.cats cat = some (bst, meta) ∧
    backExists bst key = true ∧
    alGet meta.entries key = some e ∧
    e.access_count = c ∧ e.last_accessed = la

/-- One successful `load` bumps `access_count` by exactly one, stamps
`last_accessed = now`, and persists the index before returning. -/
theorem mgrLoad_step (m : Manager) (cat key : String) (c : Nat)
    (la : Option Nat) (now : Nat) (h : entryTracked m cat key c la) :
    ∃ m' v, mgrLoad m now cat key = .ok (m', v) ∧
      entryTracked m' cat key (c + 1) (some now) := by
  rcases h with ⟨hst, bst, meta, e, hcat, hex, hentry, hc, hla⟩
  rcases backExists_load bst key hex with ⟨v, hload⟩
  refine
    ⟨{ m with
        cats := alSet m.cats cat
          (writeIndexFile bst,
            { meta with
                entries := alSet meta.entries key
                  { e with
                      access_count := e.access_count + 1,
                      last_accessed := some now } }) },
      v, ?_, ?_⟩
  · simp only [mgrLoad, hcat, hex, if_true, hload, hst, hentry]
  · refine ⟨hst, writeIndexFile bst, _, _, alGet_alSet_self _ _ _,
      backExists_writeIndexFile_mono bst key hex, alGet_alSet_self _ _ _, ?_, ?_⟩
    · simpa using hc
    · rfl

theorem loadSeq_counts (cat key : String) (ts : List Nat) :
    ∀ (m : Manager) (c : Nat) (la : Option Nat), entryTracked m cat key c la →
    ∃ m', loadSeq m cat key ts = .ok m' ∧
      entryTracked m' cat key (c + ts.length) (lastOf la ts) := by
  induction ts with
  | nil =>
    intro m c la h
    exact ⟨m, rfl, by simpa using h⟩
  | cons t ts ih =>
    intro m c la h
    rcases mgrLoad_step m cat key c la t h with ⟨m₁, v, hok, h₁⟩
    rcases ih m₁ (c + 1) (some t) h₁ with ⟨m', hseq, h'⟩
    refine ⟨m', ?_, ?_⟩
    · simp only [loadSeq, hok]
      exact hseq
    · have hlen : c + 1 + ts.length = c + (t :: ts).length := by
        simp [List.length_cons]
        omega
      rw [hlen] at h'
      exact h'

/-- C5: for a key saved through the manager (stats enabled), each
successful `Load` increments the entry's `access_count` by exactly one and
stamps `last_accessed` with that load's time, persisting the index before
returning (`mgrLoad_step`); consequently after the `n` loads of `ts` the
entry shows `access_count = n` and `last_accessed` equal to the timestamp
of the most recent load. -/
theorem access_accounting (enc : Artifact → List Nat) (m : Manager)
    (now : Nat) (cat key : String) (data : PyVal) (m₁ : Manager)
    (art : Artifact) (ts : List Nat)
    (hst : m.enable_stats = true)
    (hsave : mgrSave enc m now cat key data = .ok (m₁, art)) :
    ∃ m₂ bst₂ meta₂ e₂, loadSeq m₁ cat key ts = .ok m₂ ∧
      alGet m₂.cats cat = some (bst₂, meta₂) ∧
      alGet meta₂.entries key = some e₂ ∧
      e₂.access_count = ts.length ∧
      e₂.last_accessed = ts.getLast? := by
  have h₀ : entryTracked m₁ cat key 0 Option.none := by
    cases hcat : alGet m.cats cat with
    | none => simp [mgrSave, hcat] at hsave
    | some p =>
      cases p with
      | mk bst meta =>
        cases hbs : backSave bst key data with
        | error e => simp [mgrSave, hcat, hbs] at hsave
        | ok q =>
          cases q with
          | mk bst' art' =>
            simp only [mgrSave, hcat, hbs, hst, if_true] at hsave
            cases hsave
            refine ⟨rfl, writeIndexFile bst', _,
              savedEntry enc m.enable_checksums now key art,
              alGet_alSet_self _ _ _,
              backExists_writeIndexFile_mono bst' key
                (backSave_exists bst bst' key data art hbs), ?_, rfl, rfl⟩
            simp only [savedMeta]
            exact alGet_alSet_self _ _ _
  rcases loadSeq_counts cat key ts m₁ 0 Option.none h₀ with ⟨m₂, hseq, h₂⟩
  rcases h₂ with ⟨_, bst₂, meta₂, e₂, hcat₂, _, hentry₂, hc₂, hla₂⟩
  refine ⟨m₂, bst₂, meta₂, e₂, hseq, hcat₂, hentry₂, by simpa using hc₂, ?_⟩
  rw [hla₂]
  exact lastOf_none_getLast ts

theorem access_accounting_witness :
    ∃ m₁, (initManager false true).enable_stats = true ∧
      mgrSave encSample (initManager false true) 5 "stencils" "k" (PyVal.int 3) =
        .ok (m₁, .jsonA (PyVal.int 3)) ∧
      (∃ m₂ bst₂ meta₂ e₂, loadSeq m₁ "stencils" "k" [7, 9] = .ok m₂ ∧
        alGet m₂.cats "stencils" = some (bst₂, meta₂) ∧
        alGet meta₂.entries "k" = some e₂ ∧
        e₂.access_count = 2 ∧ e₂.last_accessed = some 9) := by
  refine ⟨_, rfl, rfl, ?_⟩
  have h := access_accounting encSample (initManager false true) 5 "stencils"
    "k" (PyVal.int 3) _ (.jsonA (PyVal.int 3)) [7, 9] rfl rfl
  simpa using h

/-! ### C2 -/

theorem strLE_antisymm {a b : String} (h₁ : strLE a b = true)
    (h₂ : strLE b a = true) : a = b := by
  cases a with
  | mk d₁ =>
    cases b with
    | mk d₂ => exact congrArg String.mk (charListLE_antisymm h₁ h₂)

/-- Strict key order: used only to show that two key-sorted permutations
of a duplicate-free item list coincide. -/
def keyLT (a b : String × PyVal) : Prop := keyLE a b ∧ a.1 ≠ b.1

instance : IsAntisymm (String × PyVal) keyLT :=
  ⟨fun _ _ h₁ h₂ => absurd (strLE_antisymm h₁.1 h₂.1) h₁.2⟩

theorem sorted_keyLT (l : List (String × PyVal)) (hs : l.Sorted keyLE)
    (hn : (l.map Prod.fst).Nodup) : l.Sorted keyLT := by
  rw [List.Nodup, List.pairwise_map] at hn
  exact (hs.and hn).imp (fun h => ⟨h.1, h.2⟩)

/-- Two dicts with the same mapping (a key permutation, no duplicate keys)
sort to the same item list. -/
theorem sortByKey_eq_of_perm (p₁ p₂ : List (String × PyVal))
    (hperm : p₁.Perm p₂) (hnodup : (p₁.map Prod.fst).Nodup) :
    sortByKey p₁ = sortByKey p₂ := by
  have hp₁ : (sortByKey p₁).Perm p₁ := List.perm_insertionSort keyLE p₁
  have hp₂ : (sortByKey p₂).Perm p₂ := List.perm_insertionSort keyLE p₂
  have hperm' : (sortByKey p₁).Perm (sortByKey p₂) :=
    (hp₁.trans hperm).trans hp₂.symm
  have hn₁ : ((sortByKey p₁).map Prod.fst).Nodup :=
    ((hp₁.map Prod.fst).nodup_iff).mpr hnodup
  have hn₂ : ((sortByKey p₂).map Prod.fst).Nodup :=
    ((hperm'.map Prod.fst).nodup_iff).mp hn₁
  exact List.eq_of_perm_of_sorted hperm'
    (sorted_keyLT _ (List.sorted_insertionSort keyLE p₁) hn₁)
    (sorted_keyLT _ (List.sorted_insertionSort keyLE p₂) hn₂)

theorem dictPairs_pyDict (l : List (String × PyVal)) :
    dictPairs (pyDict l) = l := by
  induction l with
  | nil => rfl
  | cons hd tl ih =>
    cases hd with
    | mk k v => simp [pyDict, dictPairs, ih]

theorem pyFuel_pyDict_perm (p₁ p₂ : List (String × PyVal)) (h : p₁.Perm p₂) :
    pyFuel (pyDict p₁) = pyFuel (pyDict p₂) := by
  induction h with
  | nil => rfl
  | cons x _hp ih =>
    cases x with
    | mk k v => simp [pyDict, pyFuel, ih]
  | swap x y l =>
    cases x with
    | mk k₁ v₁ =>
      cases y with
      | mk k₂ v₂ =>
        simp [pyDict, pyFuel]
        omega
  | trans _ _ ih₁ ih₂ => exact ih₁.trans ih₂

/-- One-step unfolding of `dumpsF` at a dict node. -/
theorem dumpsF_succ_dictCons (f : Nat) (k : String) (v rest : PyVal) :
    dumpsF (f + 1) (.dictCons k v rest) =
      "\x7b" ++ String.intercalate ", "
        ((sortByKey (dictPairs (.dictCons k v rest))).map
          (fun kv => jsonQuote kv.1 ++ ": " ++ dumpsF f kv.2)) ++ "\x7d" := rfl

/-- The serialization of a dict value only depends on its sorted items (at
any fuel). -/
theorem dumpsF_pyDict_congr (f : Nat) (p₁ p₂ : List (String × PyVal))
    (hsort : sortByKey p₁ = sortByKey p₂) :
    dumpsF f (pyDict p₁) = dumpsF f (pyDict p₂) := by
  have hlen : p₁.length = p₂.length := by
    have h₁ := (List.perm_insertionSort keyLE p₁).length_eq
    have h₂ := (List.perm_insertionSort keyLE p₂).length_eq
    have h₃ : (sortByKey p₁).length = (sortByKey p₂).length := by rw [hsort]
    simpa [sortByKey, h₁, h₂] using h₃
  cases f with
  | zero => rfl
  | succ f =>
    cases p₁ with
    | nil =>
      cases p₂ with
      | nil => rfl
      | cons hd tl => simp at hlen
    | cons hd₁ tl₁ =>
      cases p₂ with
      | nil => simp at hlen
      | cons hd₂ tl₂ =>
        cases hd₁ with
        | mk k₁ v₁ =>
          cases hd₂ with
          | mk k₂ v₂ =>
            rw [show pyDict ((k₁, v₁) :: tl₁) = .dictCons k₁ v₁ (pyDict tl₁) from rfl,
              show pyDict ((k₂, v₂) :: tl₂) = .dictCons k₂ v₂ (pyDict tl₂) from rfl,
              dumpsF_succ_dictCons, dumpsF_succ_dictCons,
              show dictPairs (PyVal.dictCons k₁ v₁ (pyDict tl₁)) = (k₁, v₁) :: tl₁ by
                simp [dictPairs, dictPairs_pyDict],
              show dictPairs (PyVal.dictCons k₂ v₂ (pyDict tl₂)) = (k₂, v₂) :: tl₂ by
                simp [dictPairs, dictPairs_pyDict],
              hsort]

/-- The two-key object `{"type": .., "params": ..}` sorts with `"params"`
first. -/
theorem sortByKey_typeParams (t : String) (v : PyVal) :
    sortByKey [("type", PyVal.str t), ("params", v)] =
      [("params", v), ("type", PyVal.str t)] := by
  have hc : ¬ keyLE ("type", PyVal.str t) ("params", v) := by
    simp only [keyLE, strLE]
    decide
  simp [sortByKey, List.insertionSort, List.orderedInsert, hc]

/-- Serializing the hash object only depends on the params dict through
its sorted items. -/
theorem dumpsF_hashObj_congr (f : Nat) (t : String)
    (p₁ p₂ : List (String × PyVal)) (hsort : sortByKey p₁ = sortByKey p₂) :
    dumpsF f (pyDict [("type", .str t), ("params", pyDict p₁)]) =
      dumpsF f (pyDict [("type", .str t), ("params", pyDict p₂)]) := by
  cases f with
  | zero => rfl
  | succ f =>
    rw [show pyDict [("type", PyVal.str t), ("params", pyDict p₁)] =
        .dictCons "type" (.str t) (.dictCons "params" (pyDict p₁) .dictNil)
        from rfl,
      show pyDict [("type", PyVal.str t), ("params", pyDict p₂)] =
        .dictCons "type" (.str t) (.dictCons "params" (pyDict p₂) .dictNil)
        from rfl,
      dumpsF_succ_dictCons, dumpsF_succ_dictCons]
    have hd : ∀ v : PyVal,
        dictPairs (PyVal.dictCons "type" (.str t)
          (PyVal.dictCons "params" v PyVal.dictNil)) =
        [("type", PyVal.str t), ("params", v)] := fun v => rfl
    rw [hd, hd, sortByKey_typeParams, sortByKey_typeParams]
    simp only [List.map_cons, List.map_nil]
    rw [dumpsF_pyDict_congr f p₁ p₂ hsort]

theorem computeNodeId_perm (t : String) (p₁ p₂ : List (String × PyVal))
    (hperm : p₁.Perm p₂) (hnodup : (p₁.map Prod.fst).Nodup) :
    computeNodeId t p₁ = computeNodeId t p₂ := by
  have hfuel : pyFuel (pyDict [("type", PyVal.str t), ("params", pyDict p₁)]) =
      pyFuel (pyDict [("type", PyVal.str t), ("params", pyDict p₂)]) := by
    simp [pyDict, pyFuel, pyFuel_pyDict_perm p₁ p₂ hperm]
  have hjson : jsonDumpsSorted (pyDict [("type", PyVal.str t), ("params", pyDict p₁)]) =
      jsonDumpsSorted (pyDict [("type", PyVal.str t), ("params", pyDict p₂)]) := by
    unfold jsonDumpsSorted
    rw [hfuel]
    exact dumpsF_hashObj_congr _ t p₁ p₂ (sortByKey_eq_of_perm p₁ p₂ hperm hnodup)
  unfold computeNodeId
  rw [hjson]

/-! SHA-256 digest shape: eight words, 64 hex characters. -/

theorem compressRound_length (kw st : List Nat) (t : Nat) (h : st.length = 8) :
    (compressRound kw st t).length = 8 := by
  rcases st with _ | ⟨a, _ | ⟨b, _ | ⟨c, _ | ⟨d, _ | ⟨e, _ | ⟨f, _ | ⟨g, _ |
    ⟨h8, _ | ⟨i, rest⟩⟩⟩⟩⟩⟩⟩⟩⟩ <;> simp_all [compressRound]

theorem foldl_compressRound_length (kw : List Nat) (rounds : List Nat) :
    ∀ st : List Nat, st.length = 8 →
      (rounds.foldl (compressRound kw) st).length = 8 := by
  induction rounds with
  | nil => intro st h; simpa using h
  | cons r rounds ih =>
    intro st h
    exact ih _ (compressRound_length kw st r h)

theorem sha256Block_length (hv block : List Nat) (h : hv.length = 8) :
    (sha256Block hv block).length = 8 := by
  simp [sha256Block, List.length_zip, h,
    foldl_compressRound_length (extendW 48 block) (List.range 64) hv h]

theorem sha256Words_length (msg : List Nat) : (sha256Words msg).length = 8 := by
  unfold sha256Words
  have hgen : ∀ (bs : List (List Nat)) (hv : List Nat), hv.length = 8 →
      (bs.foldl sha256Block hv).length = 8 := by
    intro bs
    induction bs with
    | nil => intro hv h; simpa using h
    | cons b bs ih =>
      intro hv h
      exact ih _ (sha256Block_length hv b h)
  exact hgen _ sha256H0 rfl

theorem flatMap_const_length {α β : Type} (f : α → List β) (n : Nat)
    (h : ∀ a, (f a).length = n) (l : List α) :
    (l.flatMap f).length = l.length * n := by
  induction l with
  | nil => simp
  | cons a l ih => simp [h, ih, Nat.succ_mul, Nat.add_comm]

theorem wordToHexChars_length (x : Nat) : (wordToHexChars x).length = 8 := by
  simp [wordToHexChars]

theorem sha256hexChars_length (msg : List Nat) :
    (sha256hexChars msg).length = 64 := by
  unfold sha256hexChars
  rw [flatMap_const_length wordToHexChars 8 wordToHexChars_length,
    sha256Words_length]

theorem hexDigitChar_mem (n : Nat) (h : n < 16) : hexDigitChar n ∈ hexChars := by
  interval_cases n <;> decide

theorem mem_hexChars_of_mem_sha256hexChars (msg : List Nat) (c : Char)
    (h : c ∈ sha256hexChars msg) : c ∈ hexChars := by
  rcases List.mem_flatMap.mp h with ⟨w, _, hc⟩
  simp only [wordToHexChars, List.mem_map, List.mem_range] at hc
  rcases hc with ⟨i, _, rfl⟩
  exact hexDigitChar_mem _ (Nat.mod_lt _ (by norm_num))

/-- C2: the node id is a pure deterministic function of
`(node_type, params)` (computing it twice gives the same id — reflexivity
in a pure embedding), permuting the insertion order of the (distinct)
params keys leaves the id unchanged, and the id has the form
`"<type>_<16 lowercase hex chars>"`. -/
theorem node_id_deterministic (t : String) (p₁ p₂ : List (String × PyVal))
    (hperm : p₁.Perm p₂) (hnodup : (p₁.map Prod.fst).Nodup) :
    computeNodeId t p₁ = computeNodeId t p₁ ∧
    computeNodeId t p₁ = computeNodeId t p₂ ∧
    ∃ hx : List Char, computeNodeId t p₁ = t ++ "_" ++ String.mk hx ∧
      hx.length = 16 ∧ ∀ c ∈ hx, c ∈ hexChars := by
  refine ⟨rfl, computeNodeId_perm t p₁ p₂ hperm hnodup, ?_⟩
  refine ⟨(sha256hexChars (utf8Encode (jsonDumpsSorted
    (pyDict [("type", PyVal.str t), ("params", pyDict p₁)])))).take 16,
    rfl, ?_, ?_⟩
  · rw [List.length_take, sha256hexChars_length]
    rfl
  · intro c hc
    exact mem_hexChars_of_mem_sha256hexChars _ c (List.take_subset _ _ hc)

theorem node_id_deterministic_witness :
    (([("a", PyVal.int 1), ("b", PyVal.int 2)] :
        List (String × PyVal)).Perm [("b", PyVal.int 2), ("a", PyVal.int 1)] ∧
     (([("a", PyVal.int 1), ("b", PyVal.int 2)] :
        List (String × PyVal)).map Prod.fst).Nodup) ∧
    (computeNodeId "evolve" [("a", PyVal.int 1), ("b", PyVal.int 2)] =
       computeNodeId "evolve" [("a", PyVal.int 1), ("b", PyVal.int 2)] ∧
     computeNodeId "evolve" [("a", PyVal.int 1), ("b", PyVal.int 2)] =
       computeNodeId "evolve" [("b", PyVal.int 2), ("a", PyVal.int 1)] ∧
     ∃ hx : List Char,
       computeNodeId "evolve" [("a", PyVal.int 1), ("b", PyVal.int 2)] =
         "evolve" ++ "_" ++ String.mk hx ∧
       hx.length = 16 ∧ ∀ c ∈ hx, c ∈ hexChars) :=
  ⟨⟨by decide, by decide⟩,
   node_id_deterministic "evolve" [("a", PyVal.int 1), ("b", PyVal.int 2)]
     [("b", PyVal.int 2), ("a", PyVal.int 1)] (by decide) (by decide)⟩

/-! ### C8 -/

/-- C8: a cache read failure for a node's id — `cache.load` raising
`FileNotFoundError` (the exists-but-unreadable case) or `KeyError` — is
treated exactly like a miss: `_load_node_result` catches it and returns
`None`, so `run_mission` falls through to the node's handler, records its
result, and counts a miss; the read error is not propagated.  (Stated over
the runner's cache interface, since the deterministic in-memory cache can
only produce the `KeyError` case itself.) -/
theorem read_failure_is_miss {σ : Type} (api : CacheAPI σ)
    (execNode : MissionNode → List (String × PyVal) → PyVal)
    (dag : MissionDAG) (now : Nat) (rs : RunnerState σ)
    (results : List (String × PyVal)) (nid msg : String)
    (hcache : rs.enable_cache = true)
    (hfail :
      api.load rs.cache now "mission_graph" nid =
        .error (.fileNotFoundError msg) ∨
      api.load rs.cache now "mission_graph" nid = .error (.keyError msg)) :
    ∃ rs' results',
      runLoop api execNode dag false now rs results [nid] =
        .ok (rs', results') ∧
      rs'.stats.cache_misses = rs.stats.cache_misses + 1 ∧
      rs'.stats.cache_hits = rs.stats.cache_hits ∧
      rs'.stats.nodes_executed = rs.stats.nodes_executed + 1 ∧
      alGet results' nid = some (execNode
        ((alGet dag.nodes nid).getD
          { node_type := "", params := [], node_id := nid, dependencies := [] })
        results) := by
  have hln : loadNodeResult api rs.cache now nid = .ok (rs.cache, PyVal.none) := by
    rcases hfail with h | h <;> simp [loadNodeResult, h]
  have hrun : runLoop api execNode dag false now rs results [nid] =
      .ok (execStep api execNode now nid
        ((alGet dag.nodes nid).getD
          { node_type := "", params := [], node_id := nid, dependencies := [] })
        { rs with cache := rs.cache } results) := by
    simp only [runLoop, hcache, Bool.not_false, Bool.and_self, if_true, hln,
      ne_eq, not_true_eq_false, if_false]
  refine ⟨_, _, hrun, ?_, ?_, ?_, ?_⟩ <;> simp [execStep, alGet_alSet_self]

def c8api : CacheAPI Unit :=
  { load := fun _ _ _ _ => .error (.fileNotFoundError "unreadable"),
    save := fun s _ _ _ _ => .ok (s, .datA []) }

def c8runner : RunnerState Unit :=
  { enable_cache := true, cache := (),
    stats := { cache_hits := 0, cache_misses := 0,
               nodes_executed := 0, nodes_cached := 0 } }

theorem read_failure_is_miss_witness :
    (c8runner.enable_cache = true ∧
     (c8api.load c8runner.cache 0 "mission_graph" "n" =
        .error (.fileNotFoundError "unreadable") ∨
      c8api.load c8runner.cache 0 "mission_graph" "n" =
        .error (.keyError "unreadable"))) ∧
    (∃ rs' results',
      runLoop c8api (fun _ _ => PyVal.int 7) (buildDag []) false 0 c8runner []
        ["n"] = .ok (rs', results') ∧
      rs'.stats.cache_misses = c8runner.stats.cache_misses + 1 ∧
      rs'.stats.cache_hits = c8runner.stats.cache_hits ∧
      rs'.stats.nodes_executed = c8runner.stats.nodes_executed + 1 ∧
      alGet results' "n" = some (PyVal.int 7)) :=
  ⟨⟨rfl, Or.inl rfl⟩,
   read_failure_is_miss c8api (fun _ _ => PyVal.int 7) (buildDag []) 0 c8runner
     [] "n" "unreadable" rfl (Or.inl rfl)⟩

/-! ### C1 -/

/-- Executor results that `FilesystemBackend.save` serializes as `.json`
documents (the route the in-repo stub executor's dict results take). -/
def jsonRoute (v : PyVal) : Bool := !(isDictOfArrays v) && jsonSerializable v

/-- The json files holding the mission results `S`. -/
def jsOf (S : List (String × PyVal)) : List (String × FsJson) :=
  S.map (fun kv => (kv.1, FsJson.doc kv.2))

/-- The mission category's state during a run: the metadata index file
plus exactly the cached node results `S` (no `.npz` files: the runner only
writes json documents here). -/
def missionStore (m : Manager) (S : List (String × PyVal)) : Prop :=
  ∃ meta, alGet m.cats "mission_graph" =
    some (.fsB { npz := [], js := ("index", .indexDoc) :: jsOf S }, meta)

theorem alGet_jsOf (S : List (String × PyVal)) (k : String) :
    alGet (jsOf S) k = (alGet S k).map FsJson.doc := by
  induction S with
  | nil => rfl
  | cons hd tl ih =>
    cases hd with
    | mk k₀ v₀ =>
      by_cases h : k₀ = k <;> simp [jsOf, alGet, h]
      simpa [jsOf] using ih

theorem jsOf_append (S₁ S₂ : List (String × PyVal)) :
    jsOf (S₁ ++ S₂) = jsOf S₁ ++ jsOf S₂ := by
  simp [jsOf]

theorem computeNodeId_length (t : String) (p : List (String × PyVal)) :
    (computeNodeId t p).length = t.length + 17 := by
  unfold computeNodeId
  rw [String.length_append, String.length_append]
  have h16 : (String.mk ((sha256hexChars (utf8Encode (jsonDumpsSorted
      (pyDict [("type", PyVal.str t), ("params", pyDict p)])))).take 16)).length
      = 16 := by
    show (List.take 16 _).length = 16
    rw [List.length_take, sha256hexChars_length]
    rfl
  rw [h16]
  have h1 : ("_" : String).length = 1 := rfl
  rw [h1]

theorem computeNodeId_ne_index (t : String) (p : List (String × PyVal)) :
    computeNodeId t p ≠ "index" := by
  intro h
  have hl := congrArg String.length h
  rw [computeNodeId_length] at hl
  have h5 : ("index" : String).length = 5 := rfl
  rw [h5] at hl
  omega

/-- `_build_dag` emits one node id per command, in command order. -/
theorem buildDagLoop_order_eq (cmds : List Command) :
    ∀ (acc : MissionDAG) (prev : Option String),
    (buildDagLoop acc prev cmds).execution_order =
      acc.execution_order ++ cmds.map (fun c => computeNodeId c.1 c.2) := by
  induction cmds with
  | nil =>
    intro acc prev
    simp [buildDagLoop]
  | cons c cmds ih =>
    intro acc prev
    cases c with
    | mk t ps =>
      simp only [buildDagLoop]
      rw [ih]
      simp

theorem buildDag_order (cmds : List Command) :
    (buildDag cmds).execution_order.length = cmds.length ∧
    ∀ nid ∈ (buildDag cmds).execution_order, nid ≠ "index" := by
  rw [buildDag, buildDagLoop_order_eq]
  simp only [List.nil_append]
  constructor
  · simp
  · intro nid hm
    rcases List.mem_map.mp hm with ⟨c, _, hc⟩
    rw [← hc]
    exact computeNodeId_ne_index c.1 c.2

/-- Loading an uncached node id raises `KeyError` (caught by
`_load_node_result`). -/
theorem mgrLoad_missionMiss (m : Manager) (now : Nat) (nid : String)
    (S : List (String × PyVal)) (hstore : missionStore m S)
    (hne : nid ≠ "index") (hmiss : alGet S nid = Option.none) :
    ∃ msg, mgrLoad m now "mission_graph" nid = .error (.keyError msg) := by
  rcases hstore with ⟨meta, hcat⟩
  have hex : backExists
      (.fsB { npz := [], js := ("index", FsJson.indexDoc) :: jsOf S }) nid
      = false := by
    have hne' : ¬ ("index" = nid) := fun hh => hne hh.symm
    simp [backExists, fsExists, alGet, hne', alGet_jsOf, hmiss]
  refine ⟨"Cache key not found: mission_graph/" ++ nid, ?_⟩
  simp [mgrLoad, hcat, hex]

/-- Loading a cached node id returns its stored document and leaves the
store unchanged (only metadata may change). -/
theorem mgrLoad_missionHit (m : Manager) (now : Nat) (nid : String)
    (v : PyVal) (S : List (String × PyVal)) (hstore : missionStore m S)
    (hne : nid ≠ "index") (hhit : alGet S nid = some v) :
    ∃ m', mgrLoad m now "mission_graph" nid = .ok (m', v) ∧
      missionStore m' S := by
  rcases hstore with ⟨meta, hcat⟩
  have hne' : ¬ ("index" = nid) := fun hh => hne hh.symm
  have hex : backExists
      (.fsB { npz := [], js := ("index", FsJson.indexDoc) :: jsOf S }) nid
      = true := by
    simp [backExists, fsExists, alGet, hne', alGet_jsOf, hhit]
  have hload : backLoad
      (.fsB { npz := [], js := ("index", FsJson.indexDoc) :: jsOf S }) nid
      = .ok v := by
    simp [backLoad, fsLoad, alGet, hne', alGet_jsOf, hhit]
  simp only [mgrLoad, hcat, hex, if_true, hload]
  cases hst : m.enable_stats
  · exact ⟨m, rfl, meta, hcat⟩
  · cases hentry : alGet meta.entries nid with
    | none => exact ⟨m, rfl, meta, hcat⟩
    | some e =>
      refine ⟨_, rfl,
        { meta with
            entries := alSet meta.entries nid
              { e with
                  access_count := e.access_count + 1,
                  last_accessed := some now } }, ?_⟩
      rw [show writeIndexFile
          (.fsB { npz := [], js := ("index", FsJson.indexDoc) :: jsOf S }) =
          (.fsB { npz := [], js := ("index", FsJson.indexDoc) :: jsOf S } :
            BackState) by simp [writeIndexFile, alSet]]
      exact alGet_alSet_self _ _ _

/-- Caching a fresh node result appends its json document to the store. -/
theorem mgrSave_missionJson (enc : Artifact → List Nat) (m : Manager)
    (now : Nat) (nid : String) (v : PyVal) (S : List (String × PyVal))
    (hstore : missionStore m S) (hne : nid ≠ "index")
    (hroute : jsonRoute v = true) (hfresh : alGet S nid = Option.none) :
    ∃ m' art, mgrSave enc m now "mission_graph" nid v = .ok (m', art) ∧
      missionStore m' (S ++ [(nid, v)]) := by
  rcases hstore with ⟨meta, hcat⟩
  simp only [jsonRoute, Bool.and_eq_true, Bool.not_eq_true'] at hroute
  have hjs : alSet (("index", FsJson.indexDoc) :: jsOf S) nid (.doc v) =
      ("index", FsJson.indexDoc) :: jsOf (S ++ [(nid, v)]) := by
    have hne' : ¬ ("index" = nid) := fun hh => hne hh.symm
    rw [jsOf_append]
    simp only [alSet, if_neg hne']
    rw [alSet_of_alGet_none _ _ _ (by simp [alGet_jsOf, hfresh])]
    rfl
  have hsave : backSave
      (.fsB { npz := [], js := ("index", FsJson.indexDoc) :: jsOf S }) nid v =
      .ok (.fsB ⟨[], alSet (("index", FsJson.indexDoc) :: jsOf S) nid
          (FsJson.doc v)⟩, .jsonA v) := by
    cases v <;> simp_all [backSave, fsSave, Except.map, isDictOfArrays,
      jsonSerializable]
  rw [hjs] at hsave
  rcases mgrSave_ok_cats enc m now "mission_graph" nid v _ meta _ _ hcat hsave
    with ⟨m', meta', hok, hcats⟩
  refine ⟨m', .jsonA v, hok, meta', ?_⟩
  rw [hcats]
  cases m.enable_stats
  · simp
  · simp [writeIndexFile, alSet]

/-- Unfolding of the run loop at an uncached node (miss path). -/
theorem runLoop_cons_miss {σ : Type} (api : CacheAPI σ)
    (execNode : MissionNode → List (String × PyVal) → PyVal)
    (dag : MissionDAG) (now : Nat) (rs : RunnerState σ)
    (results : List (String × PyVal)) (nid : String) (rest : List String)
    (c' : σ) (hc : rs.enable_cache = true)
    (hln : loadNodeResult api rs.cache now nid = .ok (c', PyVal.none)) :
    runLoop api execNode dag false now rs results (nid :: rest) =
      runLoop api execNode dag false now
        { rs with
            cache := saveNodeResult api c' now nid (execNode
              ((alGet dag.nodes nid).getD
                { node_type := "", params := [], node_id := nid,
                  dependencies := [] }) results),
            stats := { rs.stats with
              cache_misses := rs.stats.cache_misses + 1,
              nodes_executed := rs.stats.nodes_executed + 1 } }
        (alSet results nid (execNode
          ((alGet dag.nodes nid).getD
            { node_type := "", params := [], node_id := nid,
              dependencies := [] }) results)) rest := by
  simp only [runLoop, hc, Bool.not_false, Bool.and_self, if_true, hln,
    ne_eq, not_true_eq_false, if_false, execStep]

/-- Unfolding of the run loop at a cached node (hit path). -/
theorem runLoop_cons_hit {σ : Type} (api : CacheAPI σ)
    (execNode : MissionNode → List (String × PyVal) → PyVal)
    (dag : MissionDAG) (now : Nat) (rs : RunnerState σ)
    (results : List (String × PyVal)) (nid : String) (rest : List String)
    (c' : σ) (v : PyVal) (hc : rs.enable_cache = true)
    (hv : v ≠ PyVal.none)
    (hln : loadNodeResult api rs.cache now nid = .ok (c', v)) :
    runLoop api execNode dag false now rs results (nid :: rest) =
      runLoop api execNode dag false now
        { rs with
            cache := c',
            stats := { rs.stats with
              cache_hits := rs.stats.cache_hits + 1,
              nodes_cached := rs.stats.nodes_cached + 1 } }
        (alSet results nid v) rest := by
  simp only [runLoop, hc, Bool.not_false, Bool.and_self, if_true, hln]
  rw [if_pos hv]

/-- First run over fresh node ids: every node misses, is executed, and its
(non-`None`) result is appended both to the results map and to the mission
store. -/
theorem runLoop_fill (enc : Artifact → List Nat)
    (execNode : MissionNode → List (String × PyVal) → PyVal)
    (dag : MissionDAG) (now : Nat)
    (hser : ∀ nd R, jsonRoute (execNode nd R) = true)
    (hnn : ∀ nd R, execNode nd R ≠ PyVal.none) :
    ∀ (order : List String) (rs : RunnerState Manager)
      (results S : List (String × PyVal)),
    rs.enable_cache = true →
    missionStore rs.cache S →
    order.Nodup →
    (∀ nid ∈ order, nid ≠ "index") →
    (∀ nid ∈ order, alGet S nid = Option.none ∧ alGet results nid = Option.none) →
    ∃ rs' ps,
      runLoop (mgrAPI enc) execNode dag false now rs results order =
        .ok (rs', results ++ ps) ∧
      missionStore rs'.cache (S ++ ps) ∧
      ps.map Prod.fst = order ∧
      (∀ q ∈ ps, q.2 ≠ PyVal.none) ∧
      rs'.enable_cache = true ∧
      rs'.stats.cache_hits = rs.stats.cache_hits ∧
      rs'.stats.cache_misses = rs.stats.cache_misses + order.length := by
  intro order
  induction order with
  | nil =>
    intro rs results S hc hstore _ _ _
    exact ⟨rs, [], by simp [runLoop], by simpa using hstore, rfl, by simp,
      hc, rfl, by simp⟩
  | cons nid rest ih =>
    intro rs results S hc hstore hnodup hidx hfresh
    have hmem : nid ∈ nid :: rest := List.mem_cons_self _ _
    have hne := hidx nid hmem
    have hSmiss := (hfresh nid hmem).1
    have hRmiss := (hfresh nid hmem).2
    rcases mgrLoad_missionMiss rs.cache now nid S hstore hne hSmiss with
      ⟨msg, hld⟩
    have hln : loadNodeResult (mgrAPI enc) rs.cache now nid =
        .ok (rs.cache, PyVal.none) := by
      simp [loadNodeResult, mgrAPI, hld]
    rcases mgrSave_missionJson enc rs.cache now nid
      (execNode ((alGet dag.nodes nid).getD
        { node_type := "", params := [], node_id := nid, dependencies := [] })
        results) S hstore hne (hser _ _) hSmiss with ⟨m', art, hsv, hstore'⟩
    have hsn : saveNodeResult (mgrAPI enc) rs.cache now nid
        (execNode ((alGet dag.nodes nid).getD
          { node_type := "", params := [], node_id := nid, dependencies := [] })
          results) = m' := by
      simp [saveNodeResult, mgrAPI, hsv]
    rw [runLoop_cons_miss (mgrAPI enc) execNode dag now rs results nid rest
      rs.cache hc hln, hsn]
    have hfresh' : ∀ n ∈ rest,
        alGet (S ++ [(nid, execNode ((alGet dag.nodes nid).getD
          { node_type := "", params := [], node_id := nid, dependencies := [] })
          results)]) n = Option.none ∧
        alGet (alSet results nid (execNode ((alGet dag.nodes nid).getD
          { node_type := "", params := [], node_id := nid, dependencies := [] })
          results)) n = Option.none := by
      intro n hn
      have hne' : n ≠ nid := by
        intro hh
        subst hh
        exact (List.nodup_cons.mp hnodup).1 hn
      constructor
      · rw [alGet_append_left _ _ _ (hfresh n (List.mem_cons_of_mem _ hn)).1]
        simp [alGet, hne'.symm]
      · rw [alGet_alSet_ne _ _ _ _ hne']
        exact (hfresh n (List.mem_cons_of_mem _ hn)).2
    rcases ih
      { rs with
          cache := m',
          stats := { rs.stats with
            cache_misses := rs.stats.cache_misses + 1,
            nodes_executed := rs.stats.nodes_executed + 1 } }
      (alSet results nid (execNode ((alGet dag.nodes nid).getD
        { node_type := "", params := [], node_id := nid, dependencies := [] })
        results))
      (S ++ [(nid, execNode ((alGet dag.nodes nid).getD
        { node_type := "", params := [], node_id := nid, dependencies := [] })
        results)])
      hc hstore' (List.nodup_cons.mp hnodup).2
      (fun n hn => hidx n (List.mem_cons_of_mem _ hn)) hfresh'
      with ⟨rs', ps, hrun, hstore'', hkeys, hnone, hc', hhits, hmisses⟩
    refine ⟨rs', (nid, execNode ((alGet dag.nodes nid).getD
        { node_type := "", params := [], node_id := nid, dependencies := [] })
        results) :: ps, ?_, ?_, ?_, ?_, hc', by simpa using hhits, ?_⟩
    · rw [hrun, alSet_of_alGet_none _ _ _ hRmiss]
      simp
    · simpa [List.append_assoc] using hstore''
    · simp [hkeys]
    · intro q hq
      rcases List.mem_cons.mp hq with hh | hq'
      · subst hh
        exact hnn _ _
      · exact hnone q hq'
    · simp only [hmisses]
      simp [List.length_cons]
      omega

/-- Second run over ids already in the mission store: every node hits, the
cached value is returned, and the store is unchanged. -/
theorem runLoop_replay (enc : Artifact → List Nat)
    (execNode : MissionNode → List (String × PyVal) → PyVal)
    (dag : MissionDAG) (now : Nat) :
    ∀ (order : List String) (rs : RunnerState Manager)
      (results S : List (String × PyVal)),
    rs.enable_cache = true →
    missionStore rs.cache S →
    (∀ nid ∈ order, nid ≠ "index") →
    (∀ nid ∈ order, ∃ v, alGet S nid = some v ∧ v ≠ PyVal.none ∧
      alGet results nid = Option.none) →
    order.Nodup →
    ∃ rs' ps,
      runLoop (mgrAPI enc) execNode dag false now rs results order =
        .ok (rs', results ++ ps) ∧
      missionStore rs'.cache S ∧
      (∀ nid ∈ order, alGet (results ++ ps) nid = alGet S nid) ∧
      ps.map Prod.fst = order ∧
      rs'.enable_cache = true ∧
      rs'.stats.cache_hits = rs.stats.cache_hits + order.length ∧
      rs'.stats.cache_misses = rs.stats.cache_misses := by
  intro order
  induction order with
  | nil =>
    intro rs results S hc hstore _ _ _
    exact ⟨rs, [], by simp [runLoop], hstore, by simp, rfl, hc, by simp, rfl⟩
  | cons nid rest ih =>
    intro rs results S hc hstore hidx hcached hnodup
    have hmem : nid ∈ nid :: rest := List.mem_cons_self _ _
    rcases hcached nid hmem with ⟨v, hSv, hvn, hRmiss⟩
    rcases mgrLoad_missionHit rs.cache now nid v S hstore (hidx nid hmem)
      hSv with ⟨m', hld, hstore'⟩
    have hln : loadNodeResult (mgrAPI enc) rs.cache now nid =
        .ok (m', v) := by
      simp [loadNodeResult, mgrAPI, hld]
    rw [runLoop_cons_hit (mgrAPI enc) execNode dag now rs results nid rest
      m' v hc hvn hln]
    have hcached' : ∀ n ∈ rest, ∃ w, alGet S n = some w ∧ w ≠ PyVal.none ∧
        alGet (alSet results nid v) n = Option.none := by
      intro n hn
      have hne' : n ≠ nid := by
        intro hh
        subst hh
        exact (List.nodup_cons.mp hnodup).1 hn
      rcases hcached n (List.mem_cons_of_mem _ hn) with ⟨w, hw, hwn, hrn⟩
      exact ⟨w, hw, hwn, by rw [alGet_alSet_ne _ _ _ _ hne']; exact hrn⟩
    rcases ih
      { rs with
          cache := m',
          stats := { rs.stats with
            cache_hits := rs.stats.cache_hits + 1,
            nodes_cached := rs.stats.nodes_cached + 1 } }
      (alSet results nid v) S hc hstore'
      (fun n hn => hidx n (List.mem_cons_of_mem _ hn)) hcached'
      (List.nodup_cons.mp hnodup).2
      with ⟨rs', ps, hrun, hstore'', hvals, hkeys, hc', hhits, hmisses⟩
    refine ⟨rs', (nid, v) :: ps, ?_, hstore'', ?_, ?_, hc', ?_, by
      simpa using hmisses⟩
    · rw [hrun, alSet_of_alGet_none _ _ _ hRmiss]
      simp
    · intro n hn
      rcases List.mem_cons.mp hn with hh | hn'
      · subst hh
        rw [hSv, alGet_append_left, alGet, if_pos rfl]
        exact hRmiss
      · have := hvals n hn'
        rw [alSet_of_alGet_none _ _ _ hRmiss] at this
        simpa [List.append_assoc] using this
    · simp [hkeys]
    · simp only [hhits]
      simp [List.length_cons]
      omega

/-- Association lists with identical duplicate-free key sequences and equal
lookups are equal. -/
theorem alExt {α : Type} : ∀ (l₁ l₂ : List (String × α)),
    l₁.map Prod.fst = l₂.map Prod.fst →
    (l₁.map Prod.fst).Nodup →
    (∀ k ∈ l₁.map Prod.fst, alGet l₁ k = alGet l₂ k) →
    l₁ = l₂ := by
  intro l₁
  induction l₁ with
  | nil =>
    intro l₂ hk _ _
    cases l₂ with
    | nil => rfl
    | cons hd tl => simp at hk
  | cons hd tl ih =>
    intro l₂ hk hnd hget
    cases l₂ with
    | nil => simp at hk
    | cons hd₂ tl₂ =>
      cases hd with
      | mk k v =>
        cases hd₂ with
        | mk k₂ v₂ =>
          simp only [List.map_cons, List.cons.injEq] at hk
          rcases hk with ⟨hkk, htl⟩
          subst hkk
          have hv : some v = some v₂ := by
            have := hget k (by simp)
            simpa [alGet] using this
          injection hv with hv'
          subst hv'
          have hnd' := List.nodup_cons.mp hnd
          have hget' : ∀ a ∈ tl.map Prod.fst, alGet tl a = alGet tl₂ a := by
            intro a ha
            have hne : ¬ (k = a) := fun hh => hnd'.1 (by rw [hh]; exact ha)
            have := hget a (by simp [ha])
            simpa [alGet, hne] using this
          rw [ih tl₂ htl hnd'.2 hget']

/-- C1 (amended): running the same sequential command list twice from a
fresh runner yields, on the second run, one cache hit per node and a
per-node results map identical to the first run; but the reported
`cache_misses` on the second run equals N, not 0, because the runner's
`self.stats` dict is initialized once in `__init__` and accumulates across
`run_mission` calls.  Hypotheses: the derived node ids are distinct, every
executed result takes the json route of `FilesystemBackend.save`, and no
executed result is Python `None` (a stored `None` fails the loop's
`if cached_result is not None` guard and would be re-executed as a miss). -/
theorem mission_memoization (enc : Artifact → List Nat)
    (execNode : MissionNode → List (String × PyVal) → PyVal)
    (cmds : List Command) (now₁ now₂ : Nat)
    (hnodup : (buildDag cmds).execution_order.Nodup)
    (hser : ∀ nd R, jsonRoute (execNode nd R) = true)
    (hnn : ∀ nd R, execNode nd R ≠ PyVal.none) :
    ∃ rs₁ res₁ rs₂ res₂,
      runMission (mgrAPI enc) execNode initRunner now₁ cmds false =
        .ok (rs₁, res₁) ∧
      runMission (mgrAPI enc) execNode rs₁ now₂ cmds false =
        .ok (rs₂, res₂) ∧
      res₁.stats.cache_hits = 0 ∧
      res₁.stats.cache_misses = cmds.length ∧
      res₂.stats.cache_hits = cmds.length ∧
      res₂.stats.cache_misses = cmds.length ∧
      res₂.node_results = res₁.node_results := by
  have hidx := (buildDag_order cmds).2
  have hlen := (buildDag_order cmds).1
  have hstore0 : missionStore initRunner.cache [] := ⟨emptyMeta, rfl⟩
  rcases runLoop_fill enc execNode (buildDag cmds) now₁ hser hnn
    (buildDag cmds).execution_order initRunner [] [] rfl hstore0 hnodup hidx
    (fun nid _ => ⟨rfl, rfl⟩) with
    ⟨rs₁, ps, hrun₁, hstore₁, hkeys, hnone, hc₁, hhits₁, hmisses₁⟩
  have hstore₁' : missionStore rs₁.cache ps := by simpa using hstore₁
  have hwfps : alWF ps := by
    rw [alWF, hkeys]
    exact hnodup
  have hcached : ∀ nid ∈ (buildDag cmds).execution_order,
      ∃ v, alGet ps nid = some v ∧ v ≠ PyVal.none ∧
        alGet ([] : List (String × PyVal)) nid = Option.none := by
    intro nid hn
    rw [← hkeys] at hn
    rcases List.mem_map.mp hn with ⟨⟨k, v⟩, hmem, hk⟩
    cases hk
    exact ⟨v, alGet_of_mem_nodup ps _ v hmem hwfps, hnone _ hmem, rfl⟩
  rcases runLoop_replay enc execNode (buildDag cmds) now₂
    (buildDag cmds).execution_order rs₁ [] ps hc₁ hstore₁' hidx hcached hnodup
    with ⟨rs₂, qs, hrun₂, hstore₂, hvals, hkeys₂, hc₂, hhits₂, hmisses₂⟩
  have hqs : qs = ps := by
    apply alExt
    · rw [hkeys₂, hkeys]
    · rw [hkeys₂]
      exact hnodup
    · intro k hkmem
      rw [hkeys₂] at hkmem
      have h1 := hvals k hkmem
      simpa using h1
  refine ⟨rs₁, ⟨buildDag cmds, [] ++ ps, rs₁.stats⟩,
          rs₂, ⟨buildDag cmds, [] ++ qs, rs₂.stats⟩,
          ?_, ?_, ?_, ?_, ?_, ?_, ?_⟩
  · simp only [runMission]
    rw [hrun₁]
  · simp only [runMission]
    rw [hrun₂]
  · exact hhits₁
  · show rs₁.stats.cache_misses = cmds.length
    rw [hmisses₁]
    show 0 + (buildDag cmds).execution_order.length = cmds.length
    rw [Nat.zero_add]
    exact hlen
  · show rs₂.stats.cache_hits = cmds.length
    rw [hhits₂, hhits₁]
    show 0 + (buildDag cmds).execution_order.length = cmds.length
    rw [Nat.zero_add]
    exact hlen
  · show rs₂.stats.cache_misses = cmds.length
    rw [hmisses₂, hmisses₁]
    show 0 + (buildDag cmds).execution_order.length = cmds.length
    rw [Nat.zero_add]
    exact hlen
  · show ([] : List (String × PyVal)) ++ qs = [] ++ ps
    rw [hqs]

set_option maxRecDepth 1000000 in
/-- Witness for C1: a one-command mission run twice from the fresh runner. -/
theorem mission_memoization_witness :
    ∃ rs₁ res₁ rs₂ res₂,
      runMission (mgrAPI encSample) (fun _ _ => PyVal.str "r") initRunner 0
        [("a", [])] false = .ok (rs₁, res₁) ∧
      runMission (mgrAPI encSample) (fun _ _ => PyVal.str "r") rs₁ 1
        [("a", [])] false = .ok (rs₂, res₂) ∧
      res₁.stats.cache_hits = 0 ∧
      res₁.stats.cache_misses = 1 ∧
      res₂.stats.cache_hits = 1 ∧
      res₂.stats.cache_misses = 1 ∧
      res₂.node_results = res₁.node_results :=
  mission_memoization encSample (fun _ _ => PyVal.str "r") [("a", [])] 0 1
    (by decide) (fun nd R => rfl) (fun nd R h => PyVal.noConfusion h)

/-- The second run of a one-command mission, evaluated concretely: its
reported `cache_misses`, or the sentinel 0 if either run raised. -/
def c1probe : Nat :=
  match runMission (mgrAPI encSample) (fun _ _ => PyVal.str "r") initRunner 0
      [("a", [])] false with
  | .ok (rs₁, _) =>
      match runMission (mgrAPI encSample) (fun _ _ => PyVal.str "r") rs₁ 1
          [("a", [])] false with
      | .ok (_, res₂) => res₂.stats.cache_misses
      | .error _ => 0
  | .error _ => 0

set_option maxRecDepth 1000000 in
/-- C1 counterexample to the original claim: both runs of the one-command
mission succeed, yet the second run reports `cache_misses = 1`, not 0 —
the stats dict accumulates across `run_mission` calls. -/
theorem mission_second_run_misses_counterexample : c1probe = 1 := by
  decide

end SimCache
